import Mathlib

set_option linter.unusedVariables false

/-! Verification of core behaviors of the vortex columnar-array library,
shallowly embedded from the Rust sources: encoding constructors,
binary-numeric compute dispatch, chunked-array indexing and rechunking,
sparse and ALP-RD canonicalization, bit-packed filtering, and
filter-expression projection. Machine integers are modelled as `Int`/`Nat`
(the claims under study do not exercise overflow), buffers as `List`,
and fallible constructors as `Except`. -/

deriving instance DecidableEq for Except

/-! ### Roaring boolean arrays (vortex-roaring, boolean/mod.rs) -/

namespace Roaring

/-- croaring Bitmap::maximum: the largest set value, if any.
The bitmap itself is modelled as the list of its set values. -/
def bitmapMaximum (b : List Nat) : Option Nat := b.max?

/-- Logical validity of a whole array. -/
inductive LogicalValidity where
  | allValid (len : Nat)
  | allInvalid (len : Nat)
  deriving DecidableEq

structure RoaringBoolArray where
  bitmap : List Nat
  length : Nat
  deriving DecidableEq

inductive RoaringErr where
  | lengthLessThanMax
  deriving DecidableEq

/-- RoaringBoolArray::try_new from the source: computes
max_set = bitmap.maximum().unwrap_or(0) and fails iff length < max_set. -/
def tryNew (bitmap : List Nat) (length : Nat) : Except RoaringErr RoaringBoolArray :=
  let maxSet := (bitmapMaximum bitmap).getD 0
  if length < maxSet then .error .lengthLessThanMax
  else .ok { bitmap := bitmap, length := length }

/-- ArrayValidity::is_valid for RoaringBoolArray: always true. -/
def isValid (_a : RoaringBoolArray) (_index : Nat) : Bool := true

/-- ArrayValidity::logical_validity for RoaringBoolArray. -/
def logicalValidity (a : RoaringBoolArray) : LogicalValidity := .allValid a.length

/-- C10: RoaringBoolArray::try_new returns a typed error exactly when the
requested length is strictly less than the bitmap's maximum set value (the
empty bitmap's maximum taken as 0); a bitmap whose greatest set bit sits at
position equal to the length is accepted; and every constructed array reports
is_valid true everywhere with logical validity AllValid. -/
theorem c10_roaring_try_new :
    (∀ (b : List Nat) (len : Nat),
      (∃ e, tryNew b len = .error e) ↔ len < (bitmapMaximum b).getD 0) ∧
    (∀ (b : List Nat) (len : Nat) (a : RoaringBoolArray), tryNew b len = .ok a →
      (∀ i, isValid a i = true) ∧ logicalValidity a = .allValid len) ∧
    (tryNew [3] 3).isOk = true := by
  refine ⟨fun b len => ?_, fun b len a h => ?_, by decide⟩
  · by_cases h : len < (bitmapMaximum b).getD 0
    · exact iff_of_true ⟨.lengthLessThanMax, by simp [tryNew, h]⟩ h
    · apply iff_of_false _ h
      simp [tryNew, h]
  · unfold tryNew at h
    by_cases hlt : len < (bitmapMaximum b).getD 0
    · simp [hlt] at h
    · simp [hlt] at h
      exact ⟨fun i => rfl, by simp [logicalValidity, ← h]⟩

/-- Witness for C10 at the boundary instance: bitmap with maximum 3 and
length 3 is accepted and reports all-valid. -/
theorem c10_roaring_try_new_witness :
    (∀ i, isValid ⟨[3], 3⟩ i = true) ∧ logicalValidity ⟨[3], 3⟩ = .allValid 3 :=
  c10_roaring_try_new.2.1 [3] 3 ⟨[3], 3⟩ (by decide)

end Roaring

/-! ### The early add kernel (vortex/src/compute/add.rs) -/

namespace V0

inductive V0Array where
  | constant (scalar : Int) (len : Nat)
  | primitive (elems : List Int)
  deriving DecidableEq

def V0Array.alen : V0Array → Nat
  | .constant _ n => n
  | .primitive es => es.length

inductive V0Err where
  | lengthMismatch
  | unimplemented
  deriving DecidableEq

/-- add_scalars from the source: a stub that ignores both operands and
returns 24 (the file's own test assertion of 94 for 47 + 47 is commented
out next to it). -/
def addScalars (_lhs _rhs : Int) : Except V0Err Int := .ok (24 : Int)

/-- add_scalar from the source; the non-constant arm is todo!(). -/
def addScalar (lhs : V0Array) (rhs : Int) : Except V0Err V0Array :=
  match lhs with
  | .constant s n => (addScalars s rhs).map (fun v => .constant v n)
  | _ => .error .unimplemented

/-- add from the source: length check, then fold of two constants through
add_scalars; mixed arms delegate to add_scalar; the general arm is todo!(). -/
def add (lhs rhs : V0Array) : Except V0Err V0Array :=
  let length := lhs.alen
  if rhs.alen ≠ length then .error .lengthMismatch
  else
    match lhs, rhs with
    | .constant s1 _, .constant s2 _ => (addScalars s1 s2).map (fun v => .constant v length)
    | .constant s1 _, r => addScalar r s1
    | l, .constant s2 _ => addScalar l s2
    | _, _ => .error .unimplemented

/-- C9: evaluating add on two constant arrays of scalar 47 and length 100
(the source's own test input). The code folds to a Constant array of the
correct length, but its scalar is the stub value 24, not the sum 94;
unequal lengths do yield the length-mismatch error. -/
theorem c9_add_constant_stub :
    add (.constant 47 100) (.constant 47 100) = .ok (.constant 24 100) ∧
    (24 : Int) ≠ 47 + 47 ∧
    add (.constant 1 2) (.constant 1 3) = .error .lengthMismatch := by
  decide

end V0

/-! ### Chunked rechunk (vortex-array, array/chunked/mod.rs) -/

namespace Rechunk

/-- Byte size per element of the modelled primitive chunks (u64 content). -/
def bytesPerElem : Nat := 8

/-- The greedy accumulator loop of ChunkedArray::rechunk. State: remaining
input chunks, chunks_to_combine, accumulated byte and row counts. Emitting
the accumulator canonicalizes the combined chunked array, i.e. concatenates. -/
def rechunkGo (targetB targetR : Nat) :
    List (List Int) → List (List Int) → Nat → Nat → List (List Int)
  | [], acc, _, _ => if acc.isEmpty then [] else [acc.flatten]
  | c :: rest, acc, accB, accR =>
    let nB := bytesPerElem * c.length
    let nR := c.length
    let emitNow := (decide (targetB < accB + nB) || decide (targetR < accR + nR)) && !acc.isEmpty
    let pre : List (List Int) := if emitNow then [acc.flatten] else []
    let acc2 := if emitNow then [] else acc
    let accB2 := if emitNow then 0 else accB
    let accR2 := if emitNow then 0 else accR
    if targetB < nB || targetR < nR then
      pre ++ c :: rechunkGo targetB targetR rest acc2 accB2 accR2
    else
      pre ++ rechunkGo targetB targetR rest (acc2 ++ [c]) (accB2 + nB) (accR2 + nR)

/-- ChunkedArray::rechunk(target_bytesize, target_rowsize). -/
def rechunk (targetB targetR : Nat) (chunks : List (List Int)) : List (List Int) :=
  rechunkGo targetB targetR chunks [] 0 0

theorem rk_go_flatten (targetB targetR : Nat) (chunks : List (List Int)) :
    ∀ (acc : List (List Int)) (accB accR : Nat),
      (rechunkGo targetB targetR chunks acc accB accR).flatten = acc.flatten ++ chunks.flatten := by
  induction chunks with
  | nil =>
    intro acc accB accR
    by_cases h : acc.isEmpty
    · simp [rechunkGo, h, List.isEmpty_iff.mp h]
    · simp [rechunkGo, h]
  | cons c rest ih =>
    intro acc accB accR
    simp only [rechunkGo]
    by_cases hacc : acc.isEmpty
    · have hflat : acc.flatten = [] := by
        rw [List.isEmpty_iff.mp hacc]; rfl
      by_cases hover : (targetB < bytesPerElem * c.length ∨ targetR < c.length)
      · have hd : (decide (targetB < bytesPerElem * c.length) ||
            decide (targetR < c.length)) = true := by
          rcases hover with h | h <;> simp [h]
        simp [hacc, hd, ih, hflat]
      · have hd : (decide (targetB < bytesPerElem * c.length) ||
            decide (targetR < c.length)) = false := by
          push_neg at hover
          simp [hover.1, hover.2]
        simp [hacc, hd, ih, hflat]
    · by_cases hcond : (targetB < accB + bytesPerElem * c.length ∨ targetR < accR + c.length)
      · have hd : ((decide (targetB < accB + bytesPerElem * c.length) ||
            decide (targetR < accR + c.length)) && !acc.isEmpty) = true := by
          rcases hcond with h | h <;> simp [h, hacc]
        by_cases hover : (targetB < bytesPerElem * c.length ∨ targetR < c.length)
        · have hov : (decide (targetB < bytesPerElem * c.length) ||
              decide (targetR < c.length)) = true := by
            rcases hover with h | h <;> simp [h]
          simp [hd, hov, ih]
        · have hov : (decide (targetB < bytesPerElem * c.length) ||
              decide (targetR < c.length)) = false := by
            push_neg at hover
            simp [hover.1, hover.2]
          simp [hd, hov, ih]
      · push_neg at hcond
        have hd : ((decide (targetB < accB + bytesPerElem * c.length) ||
            decide (targetR < accR + c.length)) && !acc.isEmpty) = false := by
          simp [hcond.1, hcond.2]
        have hov : (decide (targetB < bytesPerElem * c.length) ||
            decide (targetR < c.length)) = false := by
          have h1 : ¬ targetB < bytesPerElem * c.length := by omega
          have h2 : ¬ targetR < c.length := by omega
          simp [h1, h2]
        simp [hd, hov, ih, List.flatten_append]

/-- C6: rechunk is the greedy accumulator: it preserves the concatenated
element sequence for every pair of caps, and on the concrete chunks
[0,1,2], [42 x 6], [4,5], [6,7], [8,9] with target_rows = 5 and unbounded
target_bytes it yields exactly the four chunks
[0,1,2], [42 x 6], [4,5,6,7], [8,9]. -/
theorem c6_rechunk_greedy :
    (∀ (targetB targetR : Nat) (chunks : List (List Int)),
      (rechunk targetB targetR chunks).flatten = chunks.flatten) ∧
    rechunk (2 ^ 64) 5 [[0, 1, 2], [42, 42, 42, 42, 42, 42], [4, 5], [6, 7], [8, 9]] =
      [[0, 1, 2], [42, 42, 42, 42, 42, 42], [4, 5, 6, 7], [8, 9]] := by
  constructor
  · intro targetB targetR chunks
    simpa using rk_go_flatten targetB targetR chunks [] 0 0
  · decide

end Rechunk


/-! ### Chunked find_chunk_idx and scalar_at (vortex-array, array/chunked/mod.rs) -/

namespace ChunkedIdx

/-- chunk_offsets of a ChunkedArray as built in try_new: the scan of chunk
lengths seeded with a leading 0, so length = nchunks + 1. -/
def chunkOffsets (chunks : List (List Int)) : List Nat :=
  List.scanl (fun acc c => acc + c.length) 0 chunks

/-- Modelled from the spec: search_sorted_usize(offsets, index, Right)
composed with to_ends_index (neither is under src) — the right-biased
insertion point, one past the last element that is at most the probe.
For a sorted list this is the count of elements that are at most the probe. -/
def searchSortedRight (xs : List Nat) (v : Nat) : Nat :=
  xs.countP (fun x => x ≤ v)

/-- ChunkedArray::find_chunk_idx from the source: right-biased search on the
offsets child, saturating subtract 1, then subtract the chunk start. -/
def findChunkIdx (chunks : List (List Int)) (i : Nat) : Nat × Nat :=
  let offsets := chunkOffsets chunks
  let indexChunk := searchSortedRight offsets i - 1
  let chunkStart := offsets.getD indexChunk 0
  (indexChunk, i - chunkStart)

/-- Modelled from the spec: chunked scalar_at recurses into the chunk located
by find_chunk_idx (the chunked compute module is not under src). -/
def scalarAtChunked (chunks : List (List Int)) (i : Nat) : Option Int :=
  (chunks.getD (findChunkIdx chunks i).1 [])[(findChunkIdx chunks i).2]?

/-- Sum of the lengths of the first j chunks: the starting offset of chunk j. -/
def preSum (chunks : List (List Int)) (j : Nat) : Nat :=
  ((chunks.take j).map List.length).sum

def totalLen (chunks : List (List Int)) : Nat := (chunks.map List.length).sum

theorem ci_scanl_shift (chunks : List (List Int)) :
    ∀ init : Nat, List.scanl (fun acc c => acc + c.length) init chunks
      = (chunkOffsets chunks).map (init + ·) := by
  induction chunks with
  | nil => intro init; simp [chunkOffsets]
  | cons c rest ih =>
    intro init
    rw [List.scanl_cons, ih (init + c.length)]
    conv_rhs => rw [chunkOffsets, List.scanl_cons]
    rw [ih (0 + c.length)]
    simp only [Nat.zero_add, List.map_append, List.map_map, List.map_cons, Nat.add_zero,
      List.singleton_append]
    refine congrArg₂ _ rfl ?_
    apply List.map_congr_left
    intro x _
    simp [Function.comp]
    omega

theorem ci_offsets_cons (c : List Int) (rest : List (List Int)) :
    chunkOffsets (c :: rest) = 0 :: (chunkOffsets rest).map (c.length + ·) := by
  rw [chunkOffsets, List.scanl_cons]
  rw [show (0 + c.length) = c.length by omega]
  rw [ci_scanl_shift rest c.length]
  rfl

theorem ci_offsets_length (chunks : List (List Int)) :
    (chunkOffsets chunks).length = chunks.length + 1 := by
  simp [chunkOffsets, List.length_scanl]

theorem ci_countP_pos (chunks : List (List Int)) (i : Nat) :
    1 ≤ searchSortedRight (chunkOffsets chunks) i := by
  cases chunks with
  | nil => simp [searchSortedRight, chunkOffsets]
  | cons c rest =>
    rw [ci_offsets_cons]
    simp [searchSortedRight, List.countP_cons]

theorem ci_preSum_cons_succ (c : List Int) (rest : List (List Int)) (j : Nat) :
    preSum (c :: rest) (j + 1) = c.length + preSum rest j := by
  simp [preSum, List.take_succ_cons]

theorem ci_preSum_zero (chunks : List (List Int)) : preSum chunks 0 = 0 := by
  simp [preSum]

theorem ci_cons_count (c : List Int) (rest : List (List Int)) (i : Nat)
    (hge : c.length ≤ i) :
    searchSortedRight (0 :: (chunkOffsets rest).map (c.length + ·)) i
      = 1 + searchSortedRight (chunkOffsets rest) (i - c.length) := by
  simp only [searchSortedRight, List.countP_cons, List.countP_map]
  rw [List.countP_congr (q := fun x => decide (x ≤ i - c.length))]
  · simp [Nat.add_comm]
  · intro x _
    simp only [Function.comp]
    constructor
    · intro h
      simp at h ⊢
      omega
    · intro h
      simp at h ⊢
      omega

theorem ci_locate (chunks : List (List Int)) :
    ∀ i, i < totalLen chunks →
      (searchSortedRight (chunkOffsets chunks) i - 1) < chunks.length ∧
      preSum chunks (searchSortedRight (chunkOffsets chunks) i - 1) ≤ i ∧
      i < preSum chunks (searchSortedRight (chunkOffsets chunks) i - 1 + 1) := by
  induction chunks with
  | nil => intro i hi; simp [totalLen] at hi
  | cons c rest ih =>
    intro i hi
    rw [ci_offsets_cons]
    by_cases hlt : i < c.length
    · have hcnt : searchSortedRight (0 :: (chunkOffsets rest).map (c.length + ·)) i = 1 := by
        simp only [searchSortedRight, List.countP_cons, List.countP_map]
        have hz : (List.countP ((fun x => decide (x ≤ i)) ∘ (c.length + ·))
            (chunkOffsets rest)) = 0 := by
          apply List.countP_eq_zero.mpr
          intro x _
          simp [Function.comp]
          omega
        simp [hz]
      rw [hcnt]
      refine ⟨by simp, ?_, ?_⟩
      · simp [ci_preSum_zero]
      · have h1 : preSum (c :: rest) (1 - 1 + 1) = c.length := by
          norm_num
          simp [preSum]
        omega
    · push_neg at hlt
      have hi2 : i - c.length < totalLen rest := by
        simp only [totalLen, List.map_cons, List.sum_cons] at hi ⊢
        omega
      obtain ⟨h1, h2, h3⟩ := ih (i - c.length) hi2
      rw [ci_cons_count c rest i hlt]
      have hpos := ci_countP_pos rest (i - c.length)
      have hc : 1 + searchSortedRight (chunkOffsets rest) (i - c.length) - 1
          = (searchSortedRight (chunkOffsets rest) (i - c.length) - 1) + 1 := by omega
      rw [hc]
      refine ⟨by simpa using h1, ?_, ?_⟩
      · rw [ci_preSum_cons_succ]
        omega
      · rw [ci_preSum_cons_succ]
        omega

theorem ci_getD_map_add (xs : List Nat) (k j : Nat) (hj : j < xs.length) :
    ((xs.map (k + ·)).getD j 0) = k + xs.getD j 0 := by
  have hj2 : j < (xs.map (k + ·)).length := by simpa using hj
  rw [List.getD_eq_getElem _ _ hj2, List.getD_eq_getElem _ _ hj]
  simp

theorem ci_maximal (chunks : List (List Int)) :
    ∀ i j, j < (chunkOffsets chunks).length →
      (chunkOffsets chunks).getD j 0 ≤ i →
      j ≤ searchSortedRight (chunkOffsets chunks) i - 1 := by
  induction chunks with
  | nil =>
    intro i j hj _
    simp [chunkOffsets] at hj
    simp [hj]
  | cons c rest ih =>
    intro i j hj hle
    rw [ci_offsets_cons] at hj hle ⊢
    cases j with
    | zero => simp
    | succ j =>
      have hj2 : j < (chunkOffsets rest).length := by
        rw [List.length_cons, List.length_map] at hj
        omega
      rw [List.getD_cons_succ, ci_getD_map_add _ _ _ hj2] at hle
      have hcl : c.length ≤ i := by omega
      rw [ci_cons_count c rest i hcl]
      have hrec := ih (i - c.length) j hj2 (by omega)
      have hpos := ci_countP_pos rest (i - c.length)
      omega

theorem ci_flatten_getElem (chunks : List (List Int)) :
    ∀ cc i, preSum chunks cc ≤ i → i < preSum chunks (cc + 1) →
      chunks.flatten[i]? = (chunks.getD cc [])[i - preSum chunks cc]? := by
  induction chunks with
  | nil =>
    intro cc i h1 h2
    simp [preSum] at h2
  | cons c rest ih =>
    intro cc i h1 h2
    cases cc with
    | zero =>
      rw [show (0 : Nat) + 1 = 0 + 1 by rfl, ci_preSum_cons_succ, ci_preSum_zero] at h2
      simp only [Nat.add_zero] at h2
      rw [List.flatten_cons, List.getElem?_append_left h2]
      simp [ci_preSum_zero]
    | succ cc =>
      rw [ci_preSum_cons_succ] at h1
      rw [ci_preSum_cons_succ] at h2
      have hcl : c.length ≤ i := by omega
      rw [List.flatten_cons, List.getElem?_append_right hcl]
      rw [ih cc (i - c.length) (by omega) (by omega)]
      rw [List.getD_cons_succ, ci_preSum_cons_succ]
      congr 1
      omega

theorem ci_offsets_getD_eq_preSum (chunks : List (List Int)) :
    ∀ j, j < chunks.length + 1 →
      (chunkOffsets chunks).getD j 0 = preSum chunks j := by
  induction chunks with
  | nil =>
    intro j hj
    have hj0 : j = 0 := by simpa using hj
    subst hj0
    simp [chunkOffsets, preSum]
  | cons c rest ih =>
    intro j hj
    rw [ci_offsets_cons]
    cases j with
    | zero => simp [ci_preSum_zero]
    | succ j =>
      have hj2 : j < (chunkOffsets rest).length := by
        rw [ci_offsets_length]
        simp at hj
        omega
      rw [List.getD_cons_succ, ci_getD_map_add _ _ _ hj2, ci_preSum_cons_succ,
        ih j (by simpa [ci_offsets_length] using hj2)]

theorem ci_chunk_len (chunks : List (List Int)) :
    ∀ j, j < chunks.length →
      (chunks.getD j []).length = preSum chunks (j + 1) - preSum chunks j := by
  induction chunks with
  | nil => intro j hj; simp at hj
  | cons c rest ih =>
    intro j hj
    cases j with
    | zero =>
      simp [preSum, List.take_succ_cons]
    | succ j =>
      rw [ci_preSum_cons_succ, ci_preSum_cons_succ, List.getD_cons_succ,
        ih j (by simpa using hj)]
      omega

/-- C4: for every chunked array and index i within bounds, find_chunk_idx is
the right-biased search minus one: it returns (c, i - offsets[c]) where c is
the last index whose offset is at most i (so among equal offsets produced by
empty chunks the last one wins), the in-chunk offset is within chunk c, and
scalar_at recursing into chunk c agrees with the logical (flattened) element
at i. -/
theorem c4_find_chunk_idx (chunks : List (List Int)) (i : Nat)
    (hi : i < totalLen chunks) :
    (findChunkIdx chunks i).1 < chunks.length ∧
    (chunkOffsets chunks).getD (findChunkIdx chunks i).1 0 ≤ i ∧
    (∀ j, j < (chunkOffsets chunks).length →
      (chunkOffsets chunks).getD j 0 ≤ i → j ≤ (findChunkIdx chunks i).1) ∧
    (findChunkIdx chunks i).2 = i - (chunkOffsets chunks).getD (findChunkIdx chunks i).1 0 ∧
    (findChunkIdx chunks i).2 < (chunks.getD (findChunkIdx chunks i).1 []).length ∧
    scalarAtChunked chunks i
      = (chunks.getD (findChunkIdx chunks i).1 [])[(findChunkIdx chunks i).2]? ∧
    scalarAtChunked chunks i = chunks.flatten[i]? := by
  obtain ⟨h1, h2, h3⟩ := ci_locate chunks i hi
  have hoff : (chunkOffsets chunks).getD (searchSortedRight (chunkOffsets chunks) i - 1) 0
      = preSum chunks (searchSortedRight (chunkOffsets chunks) i - 1) :=
    ci_offsets_getD_eq_preSum chunks _ (by omega)
  have hfst : (findChunkIdx chunks i).1 = searchSortedRight (chunkOffsets chunks) i - 1 := rfl
  have hsnd : (findChunkIdx chunks i).2
      = i - (chunkOffsets chunks).getD (searchSortedRight (chunkOffsets chunks) i - 1) 0 := rfl
  have hlen : (findChunkIdx chunks i).2 < (chunks.getD (findChunkIdx chunks i).1 []).length := by
    rw [hsnd, hfst, hoff, ci_chunk_len chunks _ h1]
    omega
  refine ⟨by rw [hfst]; exact h1, by rw [hfst, hoff]; exact h2, ?_, rfl, hlen, rfl, ?_⟩
  · intro j hj hle
    rw [hfst]
    exact ci_maximal chunks i j hj hle
  · show (chunks.getD (findChunkIdx chunks i).1 [])[(findChunkIdx chunks i).2]?
        = chunks.flatten[i]?
    rw [hsnd, hfst, hoff]
    exact (ci_flatten_getElem chunks _ i h2 h3).symm

/-- Witness for C4 on chunks [[5]], [], [[7,8]] at i = 1: the offsets are
[0,1,1]; the tie at offset 1 resolves to the last chunk (index 2), and
scalar_at returns the flattened element 7. -/
theorem c4_find_chunk_idx_witness :
    (1 < totalLen [[5], [], [7, 8]]) ∧
    (findChunkIdx [[5], [], [7, 8]] 1).1 < ([[5], [], ([7, 8] : List Int)]).length :=
  ⟨by decide, (c4_find_chunk_idx [[5], [], [7, 8]] 1 (by decide)).1⟩

end ChunkedIdx

/-! ### Sparse canonicalization (vortex-array, array/sparse/canonical.rs) -/

namespace SparseC

/-- A sparse primitive array after resolving patches: sorted unique patch
indices, the values child (a nullable primitive: raw buffer plus validity
bits), total length, and the fill scalar. -/
structure SparseArray where
  indices : List Nat
  valuesBuf : List Int
  valuesValid : List Bool
  len : Nat
  fill : Option Int

/-- Modelled from the spec: PrimitiveArray::patch (not under src) overwrites
the dense buffer and the validity at each patch index with the patch value
and the patch value validity bit, as exercised by the sparse canonical
tests in src. -/
def patchPrim (buf : List Int) (valid : List Bool) (ps : List (Nat × Int × Bool)) :
    List Int × List Bool :=
  (ps.foldl (fun b p => b.set p.1 p.2.1) buf,
   ps.foldl (fun v p => v.set p.1 p.2.2) valid)

/-- canonicalize_sparse_primitives from the source: pre-fill a dense buffer
with the fill scalar (T::default, i.e. 0, for a null fill), derive the
initial validity from the fill scalar (AllInvalid for a null fill), then
scatter the patch values. The no-patch case folds to a constant array,
shown here in dense form. -/
def canonicalize (s : SparseArray) : List Int × List Bool :=
  if s.indices.isEmpty then
    (List.replicate s.len (s.fill.getD 0), List.replicate s.len s.fill.isSome)
  else
    let primitiveFill := s.fill.getD 0
    let validityInit := List.replicate s.len s.fill.isSome
    let buf := List.replicate s.len primitiveFill
    patchPrim buf validityInit (s.indices.zip (s.valuesBuf.zip s.valuesValid))

/-- The S6 instance: indices [0,1,7], values [0, null, 1] as I32, fill null,
length 10 (the null at patch position 1 is buffer value 0, validity false). -/
def s6 : SparseArray :=
  { indices := [0, 1, 7], valuesBuf := [0, 0, 1], valuesValid := [true, false, true],
    len := 10, fill := none }

theorem sp_foldl_set_getElem {α β : Type} (f : β → α) (key : β → Nat) :
    ∀ (ps : List β) (xs : List α) (i : Nat),
      (ps.map key).Nodup → i < xs.length →
      (ps.foldl (fun b p => b.set (key p) (f p)) xs)[i]? =
        (match ps.find? (fun p => key p == i) with
         | some p => some (f p)
         | none => xs[i]?) := by
  intro ps
  induction ps with
  | nil => intro xs i _ _; simp
  | cons p rest ih =>
    intro xs i hnd hi
    simp only [List.foldl_cons, List.find?_cons]
    have hnd2 : (rest.map key).Nodup := by
      simp only [List.map_cons, List.nodup_cons] at hnd
      exact hnd.2
    have hlen : i < (xs.set (key p) (f p)).length := by
      simpa [List.length_set] using hi
    by_cases hk : key p = i
    · have hbeq : (key p == i) = true := by simpa using hk
      rw [hbeq]
      have hnone : rest.find? (fun q => key q == i) = none := by
        rw [List.find?_eq_none]
        intro q hq
        simp only [List.map_cons, List.nodup_cons] at hnd
        have : key q ≠ key p := fun he => hnd.1 (he ▸ List.mem_map_of_mem key hq)
        simp [hk ▸ this]
      rw [ih (xs.set (key p) (f p)) i hnd2 hlen, hnone]
      simp [List.getElem?_set, hk, hi]
    · have hbeq : (key p == i) = false := by simpa using hk
      rw [hbeq]
      rw [ih (xs.set (key p) (f p)) i hnd2 hlen]
      cases hfind : rest.find? (fun q => key q == i) with
      | some q => simp
      | none => simp [List.getElem?_set, hk]

theorem sp_find_zip {β : Type} (d : β) :
    ∀ (idxs : List Nat) (vs : List β) (i : Nat),
      idxs.length = vs.length →
      ((idxs.zip vs).find? (fun p => p.1 == i)).map Prod.snd
        = if i ∈ idxs then some (vs.getD (List.indexOf i idxs) d) else none := by
  intro idxs
  induction idxs with
  | nil => intro vs i _; simp
  | cons a as ih =>
    intro vs i hlen
    cases vs with
    | nil => simp at hlen
    | cons v vs =>
      simp only [List.zip_cons_cons, List.find?_cons]
      by_cases ha : a = i
      · have hbeq : ((a, v).1 == i) = true := by simpa using ha
        rw [hbeq]
        have : List.indexOf i (a :: as) = 0 := by
          simp [List.indexOf_cons, ha]
        simp [this, ha]
      · have hbeq : ((a, v).1 == i) = false := by simpa using ha
        rw [hbeq]
        have hidx : List.indexOf i (a :: as) = List.indexOf i as + 1 := by
          have : (a == i) = false := by simpa using ha
          simp [List.indexOf_cons, this]
        rw [ih vs i (by simpa using hlen), hidx]
        have hia : ¬ i = a := fun h => ha h.symm
        by_cases hm : i ∈ as
        · simp [hm, hia, List.getD_cons_succ]
        · simp [hm, hia]

/-- C3 counterexample: canonicalizing the S6 sparse array yields validity
false at position 1 (its patch value is null), so the validity vector is not
the claimed one that is true at positions 0, 1 and 7. -/
theorem c3_sparse_counterexample :
    (canonicalize s6).2 = [true, false, false, false, false, false, false, true, false, false] ∧
    (canonicalize s6).2 ≠ [true, true, false, false, false, false, false, true, false, false] := by
  decide

/-- C3 amended: canonicalizing the S6 instance produces dense values
[0,0,0,0,0,0,0,1,0,0] with validity true at positions 0 and 7 only (position
1 carries a null patch value, and the null fill makes every fill position
invalid); in general sparse canonicalization pre-fills a dense array with
the fill scalar, derives the initial validity from it, and then scatters
the patch values together with their validity bits at their indices. -/
theorem c3_sparse_canonicalize :
    (canonicalize s6
      = ([0, 0, 0, 0, 0, 0, 0, 1, 0, 0],
         [true, false, false, false, false, false, false, true, false, false])) ∧
    (∀ (s : SparseArray) (i : Nat), i < s.len →
      s.indices.Nodup →
      s.valuesBuf.length = s.indices.length →
      s.valuesValid.length = s.indices.length →
      (if i ∈ s.indices then
        (canonicalize s).1.getD i 0 = s.valuesBuf.getD (List.indexOf i s.indices) 0 ∧
        (canonicalize s).2.getD i false = s.valuesValid.getD (List.indexOf i s.indices) false
      else
        (canonicalize s).1.getD i 0 = s.fill.getD 0 ∧
        (canonicalize s).2.getD i false = s.fill.isSome)) := by
  constructor
  · decide
  · intro s i hi hnd hlb hlv
    by_cases hemp : s.indices.isEmpty
    · have hmem : i ∉ s.indices := by
        rw [List.isEmpty_iff.mp hemp]
        simp
      simp only [canonicalize, hemp, if_true, hmem, if_false]
      constructor <;>
        simp [List.getD_eq_getElem?_getD, List.getElem?_replicate, hi]
    · have hcan : canonicalize s
          = ((s.indices.zip (s.valuesBuf.zip s.valuesValid)).foldl
              (fun b p => b.set p.1 p.2.1) (List.replicate s.len (s.fill.getD 0)),
             (s.indices.zip (s.valuesBuf.zip s.valuesValid)).foldl
              (fun v p => v.set p.1 p.2.2) (List.replicate s.len s.fill.isSome)) := by
        rw [canonicalize, if_neg (by simpa using hemp)]
        rfl
      have hzlen : (s.valuesBuf.zip s.valuesValid).length = s.indices.length := by
        simp [List.length_zip, hlb, hlv]
      have hnd2 : ((s.indices.zip (s.valuesBuf.zip s.valuesValid)).map Prod.fst).Nodup := by
        rw [List.map_fst_zip _ _ (by omega)]
        exact hnd
      have hb := sp_foldl_set_getElem (fun p : Nat × Int × Bool => p.2.1) Prod.fst
        (s.indices.zip (s.valuesBuf.zip s.valuesValid))
        (List.replicate s.len (s.fill.getD 0)) i hnd2 (by simpa using hi)
      have hv := sp_foldl_set_getElem (fun p : Nat × Int × Bool => p.2.2) Prod.fst
        (s.indices.zip (s.valuesBuf.zip s.valuesValid))
        (List.replicate s.len s.fill.isSome) i hnd2 (by simpa using hi)
      have hfz := sp_find_zip ((0 : Int), false) s.indices
        (s.valuesBuf.zip s.valuesValid) i (by omega)
      by_cases hmem : i ∈ s.indices
      · rw [if_pos hmem] at hfz ⊢
        have hjlt : List.indexOf i s.indices < s.indices.length :=
          List.indexOf_lt_length.mpr hmem
        have hzget : (s.valuesBuf.zip s.valuesValid).getD (List.indexOf i s.indices)
            ((0 : Int), false)
            = (s.valuesBuf.getD (List.indexOf i s.indices) 0,
               s.valuesValid.getD (List.indexOf i s.indices) false) := by
          have h1 : List.indexOf i s.indices < (s.valuesBuf.zip s.valuesValid).length := by
            omega
          rw [List.getD_eq_getElem _ _ h1, List.getElem_zip,
            List.getD_eq_getElem _ _ (by omega), List.getD_eq_getElem _ _ (by omega)]
        rw [hzget] at hfz
        obtain ⟨q, hq, hq2⟩ : ∃ q, (s.indices.zip (s.valuesBuf.zip s.valuesValid)).find?
            (fun p => p.1 == i) = some q ∧ q.2
              = (s.valuesBuf.getD (List.indexOf i s.indices) 0,
                 s.valuesValid.getD (List.indexOf i s.indices) false) := by
          cases hfind : (s.indices.zip (s.valuesBuf.zip s.valuesValid)).find?
              (fun p => p.1 == i) with
          | none => rw [hfind] at hfz; simp at hfz
          | some q =>
            rw [hfind] at hfz
            exact ⟨q, rfl, by simpa using hfz⟩
        rw [hq] at hb hv
        simp only at hb hv
        constructor
        · rw [List.getD_eq_getElem?_getD, hcan]
          rw [hb, hq2]
          rfl
        · rw [List.getD_eq_getElem?_getD, hcan]
          rw [hv, hq2]
          rfl
      · rw [if_neg hmem] at hfz ⊢
        have hnone : (s.indices.zip (s.valuesBuf.zip s.valuesValid)).find?
            (fun p => p.1 == i) = none := by
          cases hfind : (s.indices.zip (s.valuesBuf.zip s.valuesValid)).find?
              (fun p => p.1 == i) with
          | none => rfl
          | some q => rw [hfind] at hfz; simp at hfz
        rw [hnone] at hb hv
        simp only at hb hv
        constructor
        · rw [List.getD_eq_getElem?_getD, hcan]
          rw [hb]
          simp [List.getElem?_replicate, hi]
        · rw [List.getD_eq_getElem?_getD, hcan]
          rw [hv]
          simp [List.getElem?_replicate, hi]

/-- Witness for C3 at the S6 instance, position 7 (a patch index). -/
theorem c3_sparse_canonicalize_witness :
    (canonicalize s6).1.getD 7 0 = s6.valuesBuf.getD (List.indexOf 7 s6.indices) 0 ∧
    (canonicalize s6).2.getD 7 false = s6.valuesValid.getD (List.indexOf 7 s6.indices) false := by
  have h := c3_sparse_canonicalize.2 s6 7 (by decide) (by decide) (by decide) (by decide)
  rw [if_pos (by decide)] at h
  exact h

end SparseC

/-! ### Filter-expression projection (vortex-serde, layouts/read/expr_project.rs) -/

namespace ExprP

/-- Filter expressions, covering the variants expr_project inspects
(the RowFilter branch delegates to RowFilter::only_fields, which is outside
the sources, and is not modelled). -/
inductive VExpr where
  | lit
  | ident
  | column (f : String)
  | selectInc (fs : List String)
  | selectExc (fs : List String)
  | binary (l : VExpr) (op : Nat) (r : VExpr)
  deriving DecidableEq

/-- Operator::And encoded among the binary operator codes. -/
def opAnd : Nat := 0

/-- Modelled from the spec: VortexExpr::references (vortex-expr is not under
src beyond literal.rs) — the set of fields an expression mentions. -/
def references : VExpr → List String
  | .lit => []
  | .ident => []
  | .column f => [f]
  | .selectInc fs => fs
  | .selectExc fs => fs
  | .binary l _ r => references l ++ references r

/-- expr_project from the source: restrict an expression to the fields of a
projection, returning none when the expression is pruned entirely. -/
def exprProject : VExpr → List String → Option VExpr
  | .lit, _ => some .lit
  | .selectInc fs, proj =>
    let fields := fs.filter (fun f => proj.contains f)
    if proj.length = 1 then some .ident
    else if fields.isEmpty then none
    else some (.selectInc fields)
  | .selectExc fs, proj =>
    let fields := proj.filter (fun f => !fs.contains f)
    if proj.length = 1 then some .ident
    else if fields.isEmpty then none
    else some (.selectInc fields)
  | .column f, proj =>
    if proj.contains f then
      (if proj.length = 1 then some .ident else some (.column f))
    else none
  | .binary l op r, proj =>
    let lhsProj := exprProject l proj
    let rhsProj := exprProject r proj
    if op = opAnd then
      match lhsProj, rhsProj with
      | some lp, some rp => some (.binary lp op rp)
      | some lp, none =>
        if ((references r).inter (references l)).any (fun f => proj.contains f) then none
        else some lp
      | none, some rp =>
        if ((references l).inter (references r)).any (fun f => proj.contains f) then none
        else some rp
      | none, none => none
    else
      match lhsProj, rhsProj with
      | some lp, some rp => some (.binary lp op rp)
      | _, _ => none
  | .ident, _ => none

/-- The amended claim's select rule, written out independently: with a
single-field projection every select reduces to the identity expression
regardless of the intersection; otherwise a select-include keeps its
intersection with the projection and a select-exclude keeps the projection
fields it does not exclude, pruning to none when that set is empty. -/
def specSelectProject (incl : Bool) (fs proj : List String) : Option VExpr :=
  if proj.length = 1 then some .ident
  else
    let kept := if incl then fs.filter (fun f => proj.contains f)
      else proj.filter (fun f => !fs.contains f)
    if kept.isEmpty then none else some (.selectInc kept)

/-- Bridge between Bool contains and membership for String lists. -/
theorem ep_contains_iff (l : List String) (a : String) : l.contains a = true ↔ a ∈ l := by
  rw [List.contains_iff_exists_mem_beq]
  constructor
  · rintro ⟨x, hx, he⟩
    rw [beq_iff_eq] at he
    exact he ▸ hx
  · intro h
    exact ⟨a, h, by simp⟩

/-- C8 counterexample: a select-include of field a projected onto the
single-field projection [b] has empty intersection with the projection, yet
expr_project returns Identity rather than pruning to none. -/
theorem c8_expr_project_counterexample :
    exprProject (.selectInc ["a"]) ["b"] = some .ident ∧
    (["a"].filter (fun f => (["b"] : List String).contains f)) = [] ∧
    exprProject (.selectInc ["a"]) ["b"] ≠ none := by
  refine ⟨by decide, by decide, by decide⟩

/-- C8 amended: a select-include is replaced by its intersection with the
projection and a select-exclude by the projection fields not excluded,
pruning to none when that set is empty — except that with a projection of
exactly one field every select reduces to the identity expression, even when
the intersection is empty; a column is kept iff its field is projected,
reducing to identity when the projection has exactly one field. -/
theorem c8_expr_project :
    (∀ (fs proj : List String),
      exprProject (.selectInc fs) proj = specSelectProject true fs proj ∧
      exprProject (.selectExc fs) proj = specSelectProject false fs proj) ∧
    (∀ (fs proj : List String) (f : String),
      (f ∈ fs.filter (fun g => proj.contains g) ↔ f ∈ fs ∧ f ∈ proj) ∧
      (f ∈ proj.filter (fun g => !fs.contains g) ↔ f ∈ proj ∧ f ∉ fs)) ∧
    (∀ (f : String) (proj : List String),
      (exprProject (.column f) proj ≠ none ↔ f ∈ proj) ∧
      (f ∈ proj → proj.length = 1 → exprProject (.column f) proj = some .ident) ∧
      (f ∈ proj → proj.length ≠ 1 → exprProject (.column f) proj = some (.column f))) := by
  refine ⟨fun fs proj => ⟨?_, ?_⟩, fun fs proj f => ⟨?_, ?_⟩, fun f proj => ⟨?_, ?_, ?_⟩⟩
  · by_cases h : proj.length = 1 <;> simp [exprProject, specSelectProject, h]
  · by_cases h : proj.length = 1 <;> simp [exprProject, specSelectProject, h]
  · simp [List.mem_filter]
  · simp [List.mem_filter]
  · by_cases hm : f ∈ proj
    · by_cases h : proj.length = 1 <;>
        simp [exprProject, h, ep_contains_iff, hm]
    · simp [exprProject, ep_contains_iff, hm]
  · intro hm h
    simp [exprProject, h, ep_contains_iff, hm]
  · intro hm h
    simp [exprProject, h, ep_contains_iff, hm]

/-- Witness for C8: the column b projected onto [a, b] is kept as itself. -/
theorem c8_expr_project_witness :
    exprProject (.column "b") ["a", "b"] = some (.column "b") :=
  (c8_expr_project.2.2 "b" ["a", "b"]).2.2 (by decide) (by decide)

end ExprP

/-! ### Binary numeric dispatch (vortex-array, compute/binary_numeric.rs and array/chunked/mod.rs) -/

namespace BN

inductive PTy where
  | u8 | u16 | u32 | u64 | i8 | i16 | i32 | i64 | f16 | f32 | f64
  deriving DecidableEq

/-- A primitive logical dtype: ptype plus nullability. -/
structure DTy where
  pty : PTy
  nullable : Bool
  deriving DecidableEq

inductive BOp where
  | add | sub | mul | div
  deriving DecidableEq

/-- The arrays of the modelled world: canonical primitives (validity fused
into Option elements), constants, and chunked arrays. These are the
encodings the binary-numeric claims exercise; of them only Chunked
implements BinaryNumericFn in src. -/
inductive Arr where
  | primitive (d : DTy) (elems : List (Option Int))
  | constant (d : DTy) (scalar : Option Int) (len : Nat)
  | chunked (d : DTy) (chunks : List Arr)

def dtypeOf : Arr → DTy
  | .primitive d _ => d
  | .constant d _ _ => d
  | .chunked d _ => d

mutual
def alen : Arr → Nat
  | .primitive _ es => es.length
  | .constant _ _ n => n
  | .chunked _ cs => sumAlen cs
def sumAlen : List Arr → Nat
  | [] => 0
  | c :: rest => alen c + sumAlen rest
end

mutual
/-- The logical element sequence of an array (value plus validity fused). -/
def toList : Arr → List (Option Int)
  | .primitive _ es => es
  | .constant _ s n => List.replicate n s
  | .chunked _ cs => toListAll cs
def toListAll : List Arr → List (Option Int)
  | [] => []
  | c :: rest => toList c ++ toListAll rest
end

mutual
/-- Chunked-nesting depth, the fuel measure for the dispatcher. -/
def depth : Arr → Nat
  | .primitive _ _ => 0
  | .constant _ _ _ => 0
  | .chunked _ cs => depthMax cs + 1
def depthMax : List Arr → Nat
  | [] => 0
  | c :: rest => max (depth c) (depthMax rest)
end

mutual
/-- Construction invariants: a non-nullable dtype has no null elements and
every chunk of a chunked array carries the parent dtype. -/
def wf : Arr → Bool
  | .primitive d es => d.nullable || es.all (fun e => e.isSome)
  | .constant d s _ => d.nullable || s.isSome
  | .chunked d cs => wfAll d cs
def wfAll (d : DTy) : List Arr → Bool
  | [] => true
  | c :: rest => (dtypeOf c == d) && wf c && wfAll d rest
end

/-- Which encodings implement BinaryNumericFn: in src only ChunkedEncoding
does (primitive and constant arrays fall through to the Arrow kernel, as the
source comment in arrow_numeric describes). -/
def hasBinaryNumericFn : Arr → Bool
  | .chunked _ _ => true
  | _ => false

mutual
/-- slice kernel on the modelled encodings: primitive buffers are cut,
constants keep their scalar with the new length; the chunked case is
modelled from the spec (the chunked compute module is not under src): slice
the edge chunks, keep the middle whole, drop emptied chunks, and unwrap when
a single chunk survives. -/
def slice : Arr → Nat → Nat → Arr
  | .primitive d es, start, stop => .primitive d ((es.drop start).take (stop - start))
  | .constant d s _, start, stop => .constant d s (stop - start)
  | .chunked d cs, start, stop =>
    match sliceChunks cs start stop with
    | [c] => c
    | ks => .chunked d ks
def sliceChunks : List Arr → Nat → Nat → List Arr
  | [], _, _ => []
  | c :: rest, start, stop =>
    if min start (alen c) < min stop (alen c) then
      slice c (min start (alen c)) (min stop (alen c))
        :: sliceChunks rest (start - alen c) (stop - alen c)
    else
      sliceChunks rest (start - alen c) (stop - alen c)
end

def elemOp : BOp → Int → Int → Int
  | .add, x, y => x + y
  | .sub, x, y => x - y
  | .mul, x, y => x * y
  | .div, x, y => Int.tdiv x y

/-- Pointwise kernel semantics: null when either side is null (division by
zero is modelled as tdiv's 0 rather than an Arrow error; the claims do not
exercise it). -/
def apply2 (op : BOp) : Option Int → Option Int → Option Int
  | some x, some y => some (elemOp op x y)
  | _, _ => none

def zipOp (op : BOp) (a b : List (Option Int)) : List (Option Int) :=
  List.zipWith (apply2 op) a b

inductive BnErr where
  | lengthMismatch
  | typeMismatch
  | chunkDtypeMismatch
  | outOfFuel
  deriving DecidableEq

/-- ChunkedArray::try_new: every chunk must carry the given dtype. -/
def chunkedTryNew (d : DTy) (cs : List Arr) : Except BnErr Arr :=
  if cs.all (fun c => dtypeOf c == d) then .ok (.chunked d cs) else .error .chunkDtypeMismatch

/-- The loop of BinaryNumericFn for ChunkedEncoding: zip every chunk with
the matching slice of the other operand. -/
def chunkLoop (recur : Arr → Arr → Except BnErr Arr) :
    List Arr → Arr → Nat → Except BnErr (List Arr)
  | [], _, _ => .ok []
  | c :: rest, other, start => do
    let r ← recur c (slice other start (start + alen c))
    let rs ← chunkLoop recur rest other (start + alen c)
    pure (r :: rs)

/-- The binary_numeric dispatcher from the source, on fuel: length check,
dtype check, then try the LHS encoding, then the RHS encoding — passing the
operands swapped but the operator unchanged — and finally the Arrow kernel
(modelled as the pointwise zip, which also broadcasts constants). -/
def binNumFuel : Nat → Arr → Arr → BOp → Except BnErr Arr
  | 0, _, _, _ => .error .outOfFuel
  | fuel + 1, lhs, rhs, op =>
    if alen lhs ≠ alen rhs then .error .lengthMismatch
    else if dtypeOf lhs ≠ dtypeOf rhs then .error .typeMismatch
    else
      match lhs with
      | .chunked d cs =>
        (chunkLoop (fun x y => binNumFuel fuel x y op) cs rhs 0).bind (chunkedTryNew d)
      | _ =>
        match rhs with
        | .chunked d cs =>
          (chunkLoop (fun x y => binNumFuel fuel x y op) cs lhs 0).bind (chunkedTryNew d)
        | _ =>
          .ok (.primitive ⟨(dtypeOf lhs).pty, (dtypeOf lhs).nullable || (dtypeOf rhs).nullable⟩
            (zipOp op (toList lhs) (toList rhs)))

/-- binary_numeric with enough fuel for full dispatch. -/
def binaryNumeric (lhs rhs : Arr) (op : BOp) : Except BnErr Arr :=
  binNumFuel (depth lhs + depth rhs + 1) lhs rhs op

/-- A scalar: its dtype and (possibly null) value. -/
structure VScalar where
  d : DTy
  v : Option Int
  deriving DecidableEq

/-- ConstantArray::new(scalar, len). -/
def constantArrayNew (s : VScalar) (len : Nat) : Arr := .constant s.d s.v len

/-- div_scalar from the source: materialize the scalar as a Constant of the
LHS length and dispatch — through Mul, exactly as written in src. -/
def divScalar (lhs : Arr) (rhs : VScalar) : Except BnErr Arr :=
  binaryNumeric lhs (constantArrayNew rhs (alen lhs)) .mul

mutual
theorem bn_toList_length (a : Arr) : (toList a).length = alen a := by
  cases a with
  | primitive d es => rfl
  | constant d s n => simp [toList, alen]
  | chunked d cs =>
    simp only [toList, alen]
    exact bn_toListAll_length cs
theorem bn_toListAll_length (cs : List Arr) : (toListAll cs).length = sumAlen cs := by
  cases cs with
  | nil => rfl
  | cons c rest =>
    simp only [toListAll, sumAlen, List.length_append]
    rw [bn_toList_length c, bn_toListAll_length rest]
end

theorem bn_wfAll_mem (d : DTy) :
    ∀ (cs : List Arr), wfAll d cs = true → ∀ c ∈ cs, dtypeOf c = d ∧ wf c = true := by
  intro cs
  induction cs with
  | nil => intro _ c hc; simp at hc
  | cons c0 rest ih =>
    intro h c hc
    simp only [wfAll, Bool.and_eq_true, beq_iff_eq] at h
    rcases List.mem_cons.mp hc with he | hm
    · exact he ▸ ⟨h.1.1, h.1.2⟩
    · exact ih h.2 c hm

theorem bn_depth_mem : ∀ (cs : List Arr), ∀ c ∈ cs, depth c ≤ depthMax cs := by
  intro cs
  induction cs with
  | nil => intro c hc; simp at hc
  | cons c0 rest ih =>
    intro c hc
    rcases List.mem_cons.mp hc with he | hm
    · subst he
      simp only [depthMax]
      exact le_max_left _ _
    · simp only [depthMax]
      exact le_trans (ih c hm) (le_max_right _ _)

mutual
theorem bn_slice_dw (a : Arr) (s t : Nat) (hw : wf a = true) :
    dtypeOf (slice a s t) = dtypeOf a ∧ wf (slice a s t) = true ∧
      depth (slice a s t) ≤ depth a := by
  cases a with
  | primitive d es =>
    refine ⟨rfl, ?_, le_refl _⟩
    simp only [wf, slice, Bool.or_eq_true] at hw ⊢
    rcases hw with hn | hall
    · exact Or.inl hn
    · refine Or.inr ?_
      rw [List.all_eq_true] at hall ⊢
      intro e he
      exact hall e (List.mem_of_mem_drop (List.mem_of_mem_take he))
  | constant d sc n =>
    exact ⟨rfl, by simpa [wf, slice] using hw, le_refl _⟩
  | chunked d cs =>
    simp only [wf] at hw
    have h2 := bn_sliceChunks_dw d cs s t hw
    simp only [slice]
    cases hm : sliceChunks cs s t with
    | nil =>
      rw [hm] at h2
      exact ⟨rfl, by simpa [wf] using h2.1, by simp [depth, depthMax]⟩
    | cons c rest =>
      cases rest with
      | nil =>
        rw [hm] at h2
        have hc := bn_wfAll_mem d [c] h2.1 c (by simp)
        refine ⟨hc.1, hc.2, ?_⟩
        have : depth c ≤ depthMax [c] := bn_depth_mem [c] c (by simp)
        simp only [depth]
        omega
      | cons c2 r2 =>
        rw [hm] at h2
        refine ⟨rfl, by simpa [wf] using h2.1, ?_⟩
        simp only [depth]
        omega
theorem bn_sliceChunks_dw (d : DTy) (cs : List Arr) (s t : Nat) (hw : wfAll d cs = true) :
    wfAll d (sliceChunks cs s t) = true ∧
      depthMax (sliceChunks cs s t) ≤ depthMax cs := by
  cases cs with
  | nil => simp [sliceChunks, wfAll, depthMax]
  | cons c rest =>
    simp only [wfAll, Bool.and_eq_true, beq_iff_eq] at hw
    obtain ⟨⟨hd, hwc⟩, hwr⟩ := hw
    have ihr := bn_sliceChunks_dw d rest (s - alen c) (t - alen c) hwr
    simp only [sliceChunks]
    by_cases hcond : min s (alen c) < min t (alen c)
    · simp only [hcond, if_true]
      have ihc := bn_slice_dw c (min s (alen c)) (min t (alen c)) hwc
      constructor
      · simp only [wfAll, Bool.and_eq_true, beq_iff_eq]
        exact ⟨⟨ihc.1.trans hd, ihc.2.1⟩, ihr.1⟩
      · simp only [depthMax]
        exact max_le (le_trans ihc.2.2 (le_max_left _ _))
          (le_trans ihr.2 (le_max_right _ _))
    · simp only [hcond, if_false]
      exact ⟨ihr.1, le_trans ihr.2 (le_max_right _ _)⟩
end

theorem bn_drop_replicate {α : Type} (a : α) (m n : Nat) :
    (List.replicate m a).drop n = List.replicate (m - n) a := by
  apply List.ext_getElem
  · simp
  · intro i h1 h2
    simp [List.getElem_drop, List.getElem_replicate]

mutual
theorem bn_slice_toList (a : Arr) (s t : Nat) (h1 : s ≤ t) (h2 : t ≤ alen a) :
    toList (slice a s t) = ((toList a).drop s).take (t - s) := by
  cases a with
  | primitive d es => rfl
  | constant d sc n =>
    simp only [slice, toList, alen] at h2 ⊢
    rw [bn_drop_replicate, List.take_replicate]
    congr 1
    omega
  | chunked d cs =>
    simp only [alen] at h2
    have key := bn_sliceChunks_toList cs s t h1 h2
    simp only [slice, toList]
    cases hm : sliceChunks cs s t with
    | nil =>
      rw [hm] at key
      simp only [toListAll] at key
      simp only [toList, toListAll]
      exact key
    | cons c rest =>
      cases rest with
      | nil =>
        rw [hm] at key
        simp only [toListAll, List.append_nil] at key
        exact key
      | cons c2 r2 =>
        rw [hm] at key
        simp only [toList]
        exact key
theorem bn_sliceChunks_toList (cs : List Arr) (s t : Nat) (h1 : s ≤ t)
    (h2 : t ≤ sumAlen cs) :
    toListAll (sliceChunks cs s t) = ((toListAll cs).drop s).take (t - s) := by
  cases cs with
  | nil => simp [sliceChunks, toListAll]
  | cons c rest =>
    have hA : (toList c).length = alen c := bn_toList_length c
    have hsum : sumAlen (c :: rest) = alen c + sumAlen rest := rfl
    rw [hsum] at h2
    simp only [sliceChunks, toListAll]
    rw [List.drop_append_eq_append_drop, List.take_append_eq_append_take]
    by_cases hcond : min s (alen c) < min t (alen c)
    · rw [if_pos hcond]
      have hsl : s < alen c := by omega
      have hmins : min s (alen c) = s := by omega
      simp only [toListAll]
      rw [bn_slice_toList c _ _ (by omega) (min_le_right _ _)]
      rw [bn_sliceChunks_toList rest (s - alen c) (t - alen c) (by omega) (by omega)]
      have e1 : ((toList c).drop (min s (alen c))).take (min t (alen c) - min s (alen c))
          = ((toList c).drop s).take (t - s) := by
        rw [hmins]
        rcases le_or_lt t (alen c) with h | h
        · rw [min_eq_left h]
        · have hle1 : ((toList c).drop s).length ≤ alen c - s := by
            rw [List.length_drop, hA]
          have hle2 : ((toList c).drop s).length ≤ t - s := by
            rw [List.length_drop, hA]
            omega
          rw [min_eq_right (le_of_lt h), List.take_of_length_le hle1,
            List.take_of_length_le hle2]
      have e2 : (t - alen c) - (s - alen c) = (t - s) - ((toList c).drop s).length := by
        rw [List.length_drop, hA]
        omega
      have e3 : s - (toList c).length = s - alen c := by rw [hA]
      rw [e1, e2, e3]
    · rw [if_neg hcond]
      rcases le_or_lt (alen c) s with hls | hsl
      · have hdropA : (toList c).drop s = [] :=
          List.drop_eq_nil_of_le (by rw [hA]; omega)
        rw [bn_sliceChunks_toList rest (s - alen c) (t - alen c) (by omega) (by omega)]
        rw [hdropA, hA]
        simp only [List.take_nil, List.nil_append, List.length_nil, Nat.sub_zero]
        have : (t - alen c) - (s - alen c) = t - s := by omega
        rw [this]
      · have hts : t = s := by
          by_cases htl : t ≤ alen c
          · have : min t (alen c) = t := min_eq_left htl
            have hmins : min s (alen c) = s := by omega
            omega
          · have : min t (alen c) = alen c := by omega
            have hmins : min s (alen c) = s := by omega
            omega
        have h0 : t - s = 0 := by omega
        have h0b : (t - alen c) - (s - alen c) = 0 := by omega
        rw [bn_sliceChunks_toList rest (s - alen c) (t - alen c) (by omega) (by omega)]
        rw [h0, h0b]
        simp
end

theorem bn_slice_alen (a : Arr) (s t : Nat) (h1 : s ≤ t) (h2 : t ≤ alen a) :
    alen (slice a s t) = t - s := by
  rw [← bn_toList_length, bn_slice_toList a s t h1 h2]
  rw [List.length_take, List.length_drop, bn_toList_length]
  omega

theorem bn_hasFn_slice (a : Arr) (s t : Nat) (h : hasBinaryNumericFn a = false) :
    hasBinaryNumericFn (slice a s t) = false := by
  cases a with
  | primitive d es => rfl
  | constant d sc n => rfl
  | chunked d cs => simp [hasBinaryNumericFn] at h

theorem bn_zipOp_getD (op : BOp) (A B : List (Option Int)) (i : Nat)
    (h1 : i < A.length) (h2 : i < B.length) :
    (zipOp op A B).getD i none = apply2 op (A.getD i none) (B.getD i none) := by
  have hz : i < (zipOp op A B).length := by
    simp only [zipOp, List.length_zipWith]
    omega
  rw [List.getD_eq_getElem _ _ hz, List.getD_eq_getElem _ _ h1, List.getD_eq_getElem _ _ h2]
  simp [zipOp, List.getElem_zipWith]

/-- The mixed pointwise result relation: each position of R is either
A op B or B op A at that position. -/
def MixedRes (op : BOp) (A B R : List (Option Int)) : Prop :=
  R.length = A.length ∧ B.length = A.length ∧
  ∀ i, i < A.length →
    R.getD i none = apply2 op (A.getD i none) (B.getD i none) ∨
    R.getD i none = apply2 op (B.getD i none) (A.getD i none)

theorem bn_mixed_comm {op : BOp} {A B R : List (Option Int)}
    (h : MixedRes op A B R) : MixedRes op B A R := by
  obtain ⟨hr, hb, hp⟩ := h
  refine ⟨by omega, by omega, ?_⟩
  intro i hi
  rcases hp i (by omega) with h | h
  · exact Or.inr h
  · exact Or.inl h

theorem bn_mixed_append {op : BOp} {A1 B1 R1 A2 B2 R2 : List (Option Int)}
    (h1 : MixedRes op A1 B1 R1) (h2 : MixedRes op A2 B2 R2) :
    MixedRes op (A1 ++ A2) (B1 ++ B2) (R1 ++ R2) := by
  obtain ⟨l1, m1, p1⟩ := h1
  obtain ⟨l2, m2, p2⟩ := h2
  refine ⟨by simp only [List.length_append]; omega,
    by simp only [List.length_append]; omega, ?_⟩
  intro i hi
  simp only [List.length_append] at hi
  by_cases hlt : i < A1.length
  · rw [List.getD_append _ _ _ _ (by omega), List.getD_append _ _ _ _ (by omega),
      List.getD_append _ _ _ _ (by omega)]
    exact p1 i hlt
  · rw [List.getD_append_right _ _ _ _ (by omega),
      List.getD_append_right _ _ _ _ (by omega),
      List.getD_append_right _ _ _ _ (by omega)]
    rw [l1, m1]
    exact p2 (i - A1.length) (by omega)

theorem bn_mixed_of_zip (op : BOp) (A B : List (Option Int)) (h : B.length = A.length) :
    MixedRes op A B (zipOp op A B) := by
  refine ⟨by simp only [zipOp, List.length_zipWith]; omega, h, ?_⟩
  intro i hi
  exact Or.inl (bn_zipOp_getD op A B i hi (by omega))

theorem bn_apply2_comm (op : BOp) (hop : op = BOp.add ∨ op = BOp.mul)
    (x y : Option Int) : apply2 op x y = apply2 op y x := by
  rcases hop with h | h <;> subst h <;> cases x <;> cases y <;>
    simp [apply2, elemOp, Int.add_comm, Int.mul_comm]

theorem bn_mixed_commutative (op : BOp) (hop : op = BOp.add ∨ op = BOp.mul)
    {A B R : List (Option Int)} (h : MixedRes op A B R) : R = zipOp op A B := by
  obtain ⟨l1, m1, p⟩ := h
  apply List.ext_getElem
  · rw [l1]
    simp only [zipOp, List.length_zipWith]
    omega
  · intro i hiR hiZ
    have hiA : i < A.length := by omega
    have hz := bn_zipOp_getD op A B i hiA (by omega)
    rw [List.getD_eq_getElem _ _ hiZ] at hz
    have h1 := p i hiA
    rw [List.getD_eq_getElem _ _ hiR] at h1
    rcases h1 with h | h
    · rw [h, ← hz]
    · rw [h, bn_apply2_comm op hop, ← hz]

theorem bn_chunkLoop_spec (op : BOp) (d : DTy) (other : Arr)
    (recur : Arr → Arr → Except BnErr Arr)
    (hwother : wf other = true) (hdo : dtypeOf other = d) :
    ∀ (cs : List Arr) (start : Nat),
      wfAll d cs = true →
      start + sumAlen cs ≤ alen other →
      (∀ c ∈ cs, ∀ s : Nat, s + alen c ≤ alen other →
        ∃ r, recur c (slice other s (s + alen c)) = .ok r ∧
          dtypeOf r = d ∧ alen r = alen c ∧
          MixedRes op (toList c) (toList (slice other s (s + alen c))) (toList r) ∧
          (hasBinaryNumericFn other = false →
            toList r = zipOp op (toList c) (toList (slice other s (s + alen c))))) →
      ∃ rs, chunkLoop recur cs other start = .ok rs ∧
        (∀ r ∈ rs, dtypeOf r = d) ∧
        sumAlen rs = sumAlen cs ∧
        MixedRes op (toListAll cs)
          (((toList other).drop start).take (sumAlen cs)) (toListAll rs) ∧
        (hasBinaryNumericFn other = false →
          toListAll rs = zipOp op (toListAll cs)
            (((toList other).drop start).take (sumAlen cs))) := by
  intro cs
  induction cs with
  | nil =>
    intro start _ _ _
    refine ⟨[], rfl, by simp, rfl, ?_, ?_⟩
    · exact ⟨rfl, by simp [toListAll, sumAlen], fun i hi => by simp [toListAll] at hi⟩
    · intro _
      simp [toListAll, sumAlen, zipOp]
  | cons c rest ihrest =>
    intro start hw hbound Hrec
    have hwc := bn_wfAll_mem d (c :: rest) hw c (by simp)
    have hwrest : wfAll d rest = true := by
      simp only [wfAll, Bool.and_eq_true] at hw
      exact hw.2
    have hsums : sumAlen (c :: rest) = alen c + sumAlen rest := rfl
    obtain ⟨r, hr, hrd, hra, hrm, hre⟩ :=
      Hrec c (by simp) start (by rw [hsums] at hbound; omega)
    obtain ⟨rs, hloop, hrsd, hrsa, hrsm, hrse⟩ :=
      ihrest (start + alen c) hwrest (by rw [hsums] at hbound; omega)
        (fun c2 hc2 s hs => Hrec c2 (by simp [hc2]) s hs)
    have hseg1 : toList (slice other start (start + alen c))
        = ((toList other).drop start).take (alen c) := by
      rw [bn_slice_toList other start (start + alen c) (by omega)
        (by rw [hsums] at hbound; omega)]
      congr 1
      omega
    have hseg1len : (((toList other).drop start).take (alen c)).length = alen c := by
      rw [List.length_take, List.length_drop, bn_toList_length]
      rw [hsums] at hbound
      omega
    have hsegsplit : ((toList other).drop start).take (alen c + sumAlen rest)
        = ((toList other).drop start).take (alen c)
          ++ ((toList other).drop (start + alen c)).take (sumAlen rest) := by
      rw [List.take_add, List.drop_drop]
    refine ⟨r :: rs, ?_, ?_, ?_, ?_, ?_⟩
    · simp only [chunkLoop, hr, hloop]
      rfl
    · intro x hx
      rcases List.mem_cons.mp hx with he | hm
      · exact he ▸ hrd
      · exact hrsd x hm
    · simp only [sumAlen, hra, hrsa]
    · rw [hsums, hsegsplit]
      show MixedRes op (toList c ++ toListAll rest) _ (toList r ++ toListAll rs)
      refine bn_mixed_append ?_ hrsm
      rw [← hseg1]
      exact hrm
    · intro hfo
      rw [hsums, hsegsplit]
      show toList r ++ toListAll rs = zipOp op (toList c ++ toListAll rest) _
      rw [hre hfo, hrse hfo, hseg1]
      have hlen : (toList c).length = (((toList other).drop start).take (alen c)).length := by
        rw [bn_toList_length, hseg1len]
      simp only [zipOp]
      rw [List.zipWith_append _ _ _ _ _ hlen]

theorem bn_main (fuel : Nat) :
    ∀ (lhs rhs : Arr) (op : BOp),
      depth lhs + depth rhs < fuel →
      wf lhs = true → wf rhs = true →
      dtypeOf lhs = dtypeOf rhs →
      alen lhs = alen rhs →
      ∃ r, binNumFuel fuel lhs rhs op = .ok r ∧
        dtypeOf r = dtypeOf lhs ∧
        alen r = alen lhs ∧
        MixedRes op (toList lhs) (toList rhs) (toList r) ∧
        (hasBinaryNumericFn rhs = false → toList r = zipOp op (toList lhs) (toList rhs)) ∧
        (hasBinaryNumericFn lhs = false → hasBinaryNumericFn rhs = true →
          toList r = zipOp op (toList rhs) (toList lhs)) := by
  induction fuel with
  | zero =>
    intro lhs rhs op hd
    omega
  | succ fuel ih =>
    intro lhs rhs op hd hwl hwr hdt hal
    have hRhsChunked : ∀ (d : DTy) (cs : List Arr),
        hasBinaryNumericFn lhs = false → rhs = .chunked d cs →
        ∃ rs, (chunkLoop (fun x y => binNumFuel fuel x y op) cs lhs 0).bind (chunkedTryNew d)
            = .ok (.chunked d rs) ∧
          dtypeOf (Arr.chunked d rs) = dtypeOf lhs ∧
          alen (Arr.chunked d rs) = alen lhs ∧
          MixedRes op (toList lhs) (toList rhs) (toList (Arr.chunked d rs)) ∧
          toList (Arr.chunked d rs) = zipOp op (toList rhs) (toList lhs) := by
      intro d cs hfl hrhs
      subst hrhs
      have hwcs : wfAll d cs = true := by simpa [wf] using hwr
      have hdl : dtypeOf lhs = d := by rw [hdt]; rfl
      have hsum : sumAlen cs = alen lhs := by rw [hal]; rfl
      have Hrec : ∀ c ∈ cs, ∀ s : Nat, s + alen c ≤ alen lhs →
          ∃ r, binNumFuel fuel c (slice lhs s (s + alen c)) op = .ok r ∧
            dtypeOf r = d ∧ alen r = alen c ∧
            MixedRes op (toList c) (toList (slice lhs s (s + alen c))) (toList r) ∧
            (hasBinaryNumericFn lhs = false →
              toList r = zipOp op (toList c) (toList (slice lhs s (s + alen c)))) := by
        intro c hc s hs
        have hcw := bn_wfAll_mem d cs hwcs c hc
        have hsl := bn_slice_dw lhs s (s + alen c) hwl
        have hdepthc : depth c ≤ depthMax cs := bn_depth_mem cs c hc
        have halc : alen (slice lhs s (s + alen c)) = alen c := by
          rw [bn_slice_alen lhs s (s + alen c) (by omega) (by omega)]
          omega
        obtain ⟨r, hr, hrd, hra, hrm, hre, hrs⟩ := ih c (slice lhs s (s + alen c)) op
          (by
            have h1 := hsl.2.2
            simp only [depth] at hd
            omega)
          hcw.2 hsl.2.1 (by rw [hcw.1, hsl.1, hdl]) (by omega)
        refine ⟨r, hr, by rw [hrd, hcw.1], by omega, hrm, ?_⟩
        intro hfo
        exact hre (bn_hasFn_slice lhs s (s + alen c) hfo)
      obtain ⟨rs, hloop, hrsd, hrsa, hrsm, hrse⟩ := bn_chunkLoop_spec op d lhs
        (fun x y => binNumFuel fuel x y op) hwl hdl cs 0 hwcs (by omega) Hrec
      have htn : chunkedTryNew d rs = .ok (.chunked d rs) := by
        rw [chunkedTryNew, if_pos]
        rw [List.all_eq_true]
        intro r hr
        simpa using hrsd r hr
      have hseg : ((toList lhs).drop 0).take (sumAlen cs) = toList lhs := by
        rw [List.drop_zero, hsum, ← bn_toList_length lhs, List.take_length]
      rw [hseg] at hrsm hrse
      refine ⟨rs, ?_, hdl.symm, ?_, ?_, ?_⟩
      · rw [hloop]
        simpa using htn
      · show sumAlen rs = alen lhs
        omega
      · show MixedRes op (toList lhs) (toListAll cs) (toListAll rs)
        exact bn_mixed_comm hrsm
      · show toListAll rs = zipOp op (toListAll cs) (toList lhs)
        exact hrse hfl
    cases lhs with
    | chunked d cs =>
      have hwcs : wfAll d cs = true := by simpa [wf] using hwl
      have hdo : dtypeOf rhs = d := by rw [← hdt]; rfl
      have hsum : sumAlen cs = alen rhs := by rw [← hal]; rfl
      have Hrec : ∀ c ∈ cs, ∀ s : Nat, s + alen c ≤ alen rhs →
          ∃ r, binNumFuel fuel c (slice rhs s (s + alen c)) op = .ok r ∧
            dtypeOf r = d ∧ alen r = alen c ∧
            MixedRes op (toList c) (toList (slice rhs s (s + alen c))) (toList r) ∧
            (hasBinaryNumericFn rhs = false →
              toList r = zipOp op (toList c) (toList (slice rhs s (s + alen c)))) := by
        intro c hc s hs
        have hcw := bn_wfAll_mem d cs hwcs c hc
        have hsl := bn_slice_dw rhs s (s + alen c) hwr
        have hdepthc : depth c ≤ depthMax cs := bn_depth_mem cs c hc
        have halc : alen (slice rhs s (s + alen c)) = alen c := by
          rw [bn_slice_alen rhs s (s + alen c) (by omega) (by omega)]
          omega
        obtain ⟨r, hr, hrd, hra, hrm, hre, hrs⟩ := ih c (slice rhs s (s + alen c)) op
          (by
            have h1 := hsl.2.2
            simp only [depth] at hd
            omega)
          hcw.2 hsl.2.1 (by rw [hcw.1, hsl.1, hdo]) (by omega)
        refine ⟨r, hr, by rw [hrd, hcw.1], by omega, hrm, ?_⟩
        intro hfo
        exact hre (bn_hasFn_slice rhs s (s + alen c) hfo)
      obtain ⟨rs, hloop, hrsd, hrsa, hrsm, hrse⟩ := bn_chunkLoop_spec op d rhs
        (fun x y => binNumFuel fuel x y op) hwr hdo cs 0 hwcs (by omega) Hrec
      have htn : chunkedTryNew d rs = .ok (.chunked d rs) := by
        rw [chunkedTryNew, if_pos]
        rw [List.all_eq_true]
        intro r hr
        simpa using hrsd r hr
      have hseg : ((toList rhs).drop 0).take (sumAlen cs) = toList rhs := by
        rw [List.drop_zero, hsum, ← bn_toList_length rhs, List.take_length]
      rw [hseg] at hrsm hrse
      refine ⟨.chunked d rs, ?_, rfl, ?_, ?_, ?_, ?_⟩
      · show (if alen (Arr.chunked d cs) ≠ alen rhs then
            (Except.error BnErr.lengthMismatch : Except BnErr Arr)
          else if dtypeOf (Arr.chunked d cs) ≠ dtypeOf rhs then .error .typeMismatch
          else (chunkLoop (fun x y => binNumFuel fuel x y op) cs rhs 0).bind
            (chunkedTryNew d)) = .ok (.chunked d rs)
        rw [if_neg (by omega), if_neg (not_not_intro hdt), hloop]
        simpa using htn
      · show sumAlen rs = sumAlen cs
        omega
      · show MixedRes op (toListAll cs) (toList rhs) (toListAll rs)
        exact hrsm
      · intro hfo
        show toListAll rs = zipOp op (toListAll cs) (toList rhs)
        exact hrse hfo
      · intro hfalse _
        simp [hasBinaryNumericFn] at hfalse
    | primitive dp es =>
      cases rhs with
      | chunked d cs =>
        obtain ⟨rs, hloop, h1, h2, h3, h4⟩ := hRhsChunked d cs rfl rfl
        refine ⟨.chunked d rs, ?_, h1, h2, h3, ?_, ?_⟩
        · show (if alen (Arr.primitive dp es) ≠ alen (Arr.chunked d cs) then
              (Except.error BnErr.lengthMismatch : Except BnErr Arr)
            else if dtypeOf (Arr.primitive dp es) ≠ dtypeOf (Arr.chunked d cs) then
              .error .typeMismatch
            else (chunkLoop (fun x y => binNumFuel fuel x y op) cs (Arr.primitive dp es)
              0).bind (chunkedTryNew d)) = .ok (.chunked d rs)
          rw [if_neg (by omega), if_neg (not_not_intro hdt)]
          exact hloop
        · intro hfo
          simp [hasBinaryNumericFn] at hfo
        · intro _ _
          exact h4
      | primitive dq fs =>
        refine ⟨.primitive ⟨dp.pty, dp.nullable || dq.nullable⟩ (zipOp op es fs),
          ?_, ?_, ?_, ?_, fun _ => rfl, ?_⟩
        · show (if alen (Arr.primitive dp es) ≠ alen (Arr.primitive dq fs) then
              (Except.error BnErr.lengthMismatch : Except BnErr Arr)
            else if dtypeOf (Arr.primitive dp es) ≠ dtypeOf (Arr.primitive dq fs) then
              .error .typeMismatch
            else .ok (.primitive ⟨dp.pty, dp.nullable || dq.nullable⟩ (zipOp op es fs)))
            = .ok (.primitive ⟨dp.pty, dp.nullable || dq.nullable⟩ (zipOp op es fs))
          rw [if_neg (by omega), if_neg (not_not_intro hdt)]
        · show (⟨dp.pty, dp.nullable || dq.nullable⟩ : DTy) = dp
          have hq : dq = dp := by simpa [dtypeOf] using hdt.symm
          rw [hq, Bool.or_self]
        · show (zipOp op es fs).length = es.length
          simp only [zipOp, List.length_zipWith]
          simp only [alen] at hal
          omega
        · exact bn_mixed_of_zip op es fs (by simpa [alen] using hal.symm)
        · intro _ hff
          simp [hasBinaryNumericFn] at hff
      | constant dq sc n =>
        refine ⟨.primitive ⟨dp.pty, dp.nullable || dq.nullable⟩
          (zipOp op es (List.replicate n sc)), ?_, ?_, ?_, ?_, fun _ => rfl, ?_⟩
        · show (if alen (Arr.primitive dp es) ≠ alen (Arr.constant dq sc n) then
              (Except.error BnErr.lengthMismatch : Except BnErr Arr)
            else if dtypeOf (Arr.primitive dp es) ≠ dtypeOf (Arr.constant dq sc n) then
              .error .typeMismatch
            else .ok (.primitive ⟨dp.pty, dp.nullable || dq.nullable⟩
              (zipOp op es (List.replicate n sc))))
            = .ok (.primitive ⟨dp.pty, dp.nullable || dq.nullable⟩
              (zipOp op es (List.replicate n sc)))
          rw [if_neg (by omega), if_neg (not_not_intro hdt)]
        · show (⟨dp.pty, dp.nullable || dq.nullable⟩ : DTy) = dp
          have hq : dq = dp := by simpa [dtypeOf] using hdt.symm
          rw [hq, Bool.or_self]
        · show (zipOp op es (List.replicate n sc)).length = es.length
          simp only [zipOp, List.length_zipWith, List.length_replicate]
          simp only [alen] at hal
          omega
        · refine bn_mixed_of_zip op _ _ ?_
          simp only [toList, List.length_replicate]
          simpa [alen] using hal.symm
        · intro _ hff
          simp [hasBinaryNumericFn] at hff
    | constant dc sc n =>
      cases rhs with
      | chunked d cs =>
        obtain ⟨rs, hloop, h1, h2, h3, h4⟩ := hRhsChunked d cs rfl rfl
        refine ⟨.chunked d rs, ?_, h1, h2, h3, ?_, ?_⟩
        · show (if alen (Arr.constant dc sc n) ≠ alen (Arr.chunked d cs) then
              (Except.error BnErr.lengthMismatch : Except BnErr Arr)
            else if dtypeOf (Arr.constant dc sc n) ≠ dtypeOf (Arr.chunked d cs) then
              .error .typeMismatch
            else (chunkLoop (fun x y => binNumFuel fuel x y op) cs (Arr.constant dc sc n)
              0).bind (chunkedTryNew d)) = .ok (.chunked d rs)
          rw [if_neg (by omega), if_neg (not_not_intro hdt)]
          exact hloop
        · intro hfo
          simp [hasBinaryNumericFn] at hfo
        · intro _ _
          exact h4
      | primitive dq fs =>
        refine ⟨.primitive ⟨dc.pty, dc.nullable || dq.nullable⟩
          (zipOp op (List.replicate n sc) fs), ?_, ?_, ?_, ?_, fun _ => rfl, ?_⟩
        · show (if alen (Arr.constant dc sc n) ≠ alen (Arr.primitive dq fs) then
              (Except.error BnErr.lengthMismatch : Except BnErr Arr)
            else if dtypeOf (Arr.constant dc sc n) ≠ dtypeOf (Arr.primitive dq fs) then
              .error .typeMismatch
            else .ok (.primitive ⟨dc.pty, dc.nullable || dq.nullable⟩
              (zipOp op (List.replicate n sc) fs)))
            = .ok (.primitive ⟨dc.pty, dc.nullable || dq.nullable⟩
              (zipOp op (List.replicate n sc) fs))
          rw [if_neg (by omega), if_neg (not_not_intro hdt)]
        · show (⟨dc.pty, dc.nullable || dq.nullable⟩ : DTy) = dc
          have hq : dq = dc := by simpa [dtypeOf] using hdt.symm
          rw [hq, Bool.or_self]
        · show (zipOp op (List.replicate n sc) fs).length = n
          simp only [zipOp, List.length_zipWith, List.length_replicate]
          simp only [alen] at hal
          omega
        · refine bn_mixed_of_zip op _ _ ?_
          simp only [toList, List.length_replicate]
          simpa [alen] using hal.symm
        · intro _ hff
          simp [hasBinaryNumericFn] at hff
      | constant dq sc2 m =>
        refine ⟨.primitive ⟨dc.pty, dc.nullable || dq.nullable⟩
          (zipOp op (List.replicate n sc) (List.replicate m sc2)), ?_, ?_, ?_, ?_,
          fun _ => rfl, ?_⟩
        · show (if alen (Arr.constant dc sc n) ≠ alen (Arr.constant dq sc2 m) then
              (Except.error BnErr.lengthMismatch : Except BnErr Arr)
            else if dtypeOf (Arr.constant dc sc n) ≠ dtypeOf (Arr.constant dq sc2 m) then
              .error .typeMismatch
            else .ok (.primitive ⟨dc.pty, dc.nullable || dq.nullable⟩
              (zipOp op (List.replicate n sc) (List.replicate m sc2))))
            = .ok (.primitive ⟨dc.pty, dc.nullable || dq.nullable⟩
              (zipOp op (List.replicate n sc) (List.replicate m sc2)))
          rw [if_neg (by omega), if_neg (not_not_intro hdt)]
        · show (⟨dc.pty, dc.nullable || dq.nullable⟩ : DTy) = dc
          have hq : dq = dc := by simpa [dtypeOf] using hdt.symm
          rw [hq, Bool.or_self]
        · show (zipOp op (List.replicate n sc) (List.replicate m sc2)).length = n
          simp only [zipOp, List.length_zipWith, List.length_replicate]
          simp only [alen] at hal
          omega
        · refine bn_mixed_of_zip op _ _ ?_
          simp only [toList, List.length_replicate]
          simpa [alen] using hal.symm
        · intro _ hff
          simp [hasBinaryNumericFn] at hff

/-- C1 counterexample: subtracting a one-chunk chunked array b = [1] from a
primitive array a = [10] dispatches through b's encoding with the operands
swapped but the operator unchanged, producing b[0] - a[0] = -9 instead of
the claimed a[0] - b[0] = 9. -/
theorem c1_binary_numeric_counterexample :
    binaryNumeric (.primitive ⟨.i32, false⟩ [some 10])
        (.chunked ⟨.i32, false⟩ [.primitive ⟨.i32, false⟩ [some 1]]) .sub
      = .ok (.chunked ⟨.i32, false⟩ [.primitive ⟨.i32, false⟩ [some (-9)]]) ∧
    apply2 .sub (some 10) (some 1) = some 9 ∧
    (some (-9) : Option Int) ≠ some 9 :=
  ⟨rfl, rfl, by decide⟩

/-- C1 amended: for arrays of the modelled encodings with equal primitive
dtype and length, binary_numeric succeeds with an array of the same length
and dtype Primitive(ptype, a.nullable || b.nullable) whose value at each
position where both operands are non-null is a[i] op b[i] or b[i] op a[i];
for Add and Mul it is always a[i] op b[i], and likewise whenever b's
encoding does not implement the kernel (so the dispatch stays on a's side
or the canonical path); but when only b's encoding implements the kernel
the dispatcher passes the operands swapped with the same operator, so the
result is b[i] op a[i] — flipped for Sub and Div. -/
theorem c1_binary_numeric (a b : Arr) (op : BOp)
    (hwa : wf a = true) (hwb : wf b = true)
    (hdt : dtypeOf a = dtypeOf b) (hal : alen a = alen b) :
    ∃ r, binaryNumeric a b op = .ok r ∧
      alen r = alen a ∧
      dtypeOf r = ⟨(dtypeOf a).pty, (dtypeOf a).nullable || (dtypeOf b).nullable⟩ ∧
      (∀ i, i < alen a →
        (toList r).getD i none
            = apply2 op ((toList a).getD i none) ((toList b).getD i none) ∨
        (toList r).getD i none
            = apply2 op ((toList b).getD i none) ((toList a).getD i none)) ∧
      ((op = .add ∨ op = .mul) → toList r = zipOp op (toList a) (toList b)) ∧
      (hasBinaryNumericFn b = false → toList r = zipOp op (toList a) (toList b)) ∧
      (hasBinaryNumericFn a = false → hasBinaryNumericFn b = true →
        toList r = zipOp op (toList b) (toList a)) := by
  obtain ⟨r, hok, hdr, har, hm, he, hs⟩ :=
    bn_main (depth a + depth b + 1) a b op (by omega) hwa hwb hdt hal
  refine ⟨r, hok, har, ?_, ?_, ?_, he, hs⟩
  · have hnb : (dtypeOf b).nullable = (dtypeOf a).nullable := by rw [hdt]
    rw [hdr, hnb, Bool.or_self]
  · intro i hi
    obtain ⟨l1, m1, p⟩ := hm
    exact p i (by rw [bn_toList_length]; exact hi)
  · intro hop
    exact bn_mixed_commutative op hop hm

def c1wa : Arr := .primitive ⟨.i32, false⟩ [some 1, some 2]

def c1wb : Arr := .primitive ⟨.i32, false⟩ [some 3, some 4]

/-- Witness for C1 at two concrete primitive arrays under Sub. -/
theorem c1_binary_numeric_witness :
    (wf c1wa = true ∧ wf c1wb = true ∧ dtypeOf c1wa = dtypeOf c1wb ∧
      alen c1wa = alen c1wb) ∧
    (∃ r, binaryNumeric c1wa c1wb .sub = .ok r ∧
      alen r = alen c1wa ∧
      dtypeOf r = ⟨(dtypeOf c1wa).pty, (dtypeOf c1wa).nullable || (dtypeOf c1wb).nullable⟩ ∧
      (∀ i, i < alen c1wa →
        (toList r).getD i none
            = apply2 .sub ((toList c1wa).getD i none) ((toList c1wb).getD i none) ∨
        (toList r).getD i none
            = apply2 .sub ((toList c1wb).getD i none) ((toList c1wa).getD i none)) ∧
      ((BOp.sub = .add ∨ BOp.sub = .mul) →
        toList r = zipOp .sub (toList c1wa) (toList c1wb)) ∧
      (hasBinaryNumericFn c1wb = false →
        toList r = zipOp .sub (toList c1wa) (toList c1wb)) ∧
      (hasBinaryNumericFn c1wa = false → hasBinaryNumericFn c1wb = true →
        toList r = zipOp .sub (toList c1wb) (toList c1wa))) :=
  ⟨⟨by decide, by decide, by decide, by decide⟩,
   c1_binary_numeric c1wa c1wb .sub (by decide) (by decide) (by decide) (by decide)⟩

def c2lhs : Arr := .primitive ⟨.i64, false⟩ [some 10]

/-- C2: div_scalar on the primitive array [10] with scalar 5 returns [50]
because the source dispatches through Mul; routing the same constant operand
through Div (what the claim prescribes) yields [2]. -/
theorem c2_div_scalar_bug :
    divScalar c2lhs ⟨⟨.i64, false⟩, some 5⟩ = .ok (.primitive ⟨.i64, false⟩ [some 50]) ∧
    binaryNumeric c2lhs (constantArrayNew ⟨⟨.i64, false⟩, some 5⟩ (alen c2lhs)) .div
      = .ok (.primitive ⟨.i64, false⟩ [some 2]) ∧
    ((50 : Int) ≠ 2) :=
  ⟨rfl, rfl, by decide⟩

end BN

/-! ### ALP-RD canonicalization (encodings/alp, alp_rd/array.rs) -/

namespace AlpRd

set_option maxRecDepth 10000

/-- An ALP-RD array over f32 bit patterns: left-part dictionary codes with
the array validity, the (at most 8 entry) dictionary, the right bit width,
the non-nullable right parts, and the left-part patches (index → raw left
pattern). Floats are modelled by their IEEE-754 bit patterns as Nat;
reinterpretation between bits and float is a bijection and stays implicit. -/
structure ALPRDArray where
  leftCodes : List Nat
  leftValid : List Bool
  dict : List Nat
  rightBitWidth : Nat
  rightParts : List Nat
  patches : List (Nat × Nat)

/-- Patches::get_patched at an index: the patch value if one exists there. -/
def patchGet (ps : List (Nat × Nat)) (i : Nat) : Option Nat :=
  (ps.find? (fun p => p.1 == i)).map Prod.snd

/-- Modelled from the spec: alp_rd_decode (not under src): for each i,
left = patches.get(i).unwrap_or(dict[left_codes[i]]) and
bits = (left << right_bit_width) | right_parts[i]. -/
def alpRdDecode (leftParts : List Nat) (dict : List Nat) (rightBitWidth : Nat)
    (rightParts : List Nat) (patches : List (Nat × Nat)) : List Nat :=
  (List.range leftParts.length).map (fun i =>
    ((patchGet patches i).getD (dict.getD (leftParts.getD i 0) 0) <<< rightBitWidth)
      ||| rightParts.getD i 0)

/-- IntoCanonical for ALPRDArray from the source: decode the left parts
against the builtin dictionary and take the whole-array validity from the
left_parts child. -/
def intoCanonical (a : ALPRDArray) : List Nat × List Bool :=
  (alpRdDecode a.leftCodes a.dict a.rightBitWidth a.rightParts a.patches, a.leftValid)

/-- Modelled from the spec: the encoder's patch collection — every position
whose left part is not in the dictionary becomes a patch (index → raw left
pattern). -/
def buildPatches (dict : List Nat) : Nat → List Nat → List (Nat × Nat)
  | _, [] => []
  | i, l :: rest =>
    if l ∈ dict then buildPatches dict (i + 1) rest
    else (i, l) :: buildPatches dict (i + 1) rest

/-- Modelled from the spec: the RD encoder splits each bit pattern into a
rightBitWidth-bit right part and a residual left part; left parts found in
the dictionary are stored as codes (others keep a placeholder code 0 and
are patched). -/
def alpRdEncode (vals : List Nat) (valid : List Bool) (dict : List Nat)
    (rightBitWidth : Nat) : ALPRDArray :=
  { leftCodes := (vals.map (fun v => v >>> rightBitWidth)).map
      (fun l => if l ∈ dict then List.indexOf l dict else 0)
    leftValid := valid
    dict := dict
    rightBitWidth := rightBitWidth
    rightParts := vals.map (fun v => v &&& ((1 <<< rightBitWidth) - 1))
    patches := buildPatches dict 0 (vals.map (fun v => v >>> rightBitWidth)) }

/-- The f32 bit pattern of next_up(0.1f32), i.e. 0x3DCCCCCE. -/
def nextUpTenthBits : Nat := 1036831950

/-- The S3 values: 1024 copies of next_up(0.1f32) with positions 1, 5, 900
nulled out (their buffer slots hold the f32 default 0.0, bits 0). -/
def s3vals : List Nat :=
  (List.range 1024).map (fun i => if i = 1 ∨ i = 5 ∨ i = 900 then 0 else nextUpTenthBits)

def s3valid : List Bool :=
  (List.range 1024).map (fun i => if i = 1 ∨ i = 5 ∨ i = 900 then false else true)

theorem ar_build_indices_ge (dict : List Nat) :
    ∀ (xs : List Nat) (i0 : Nat) (p : Nat × Nat),
      p ∈ buildPatches dict i0 xs → i0 ≤ p.1 := by
  intro xs
  induction xs with
  | nil => intro i0 p hp; simp [buildPatches] at hp
  | cons l rest ih =>
    intro i0 p hp
    simp only [buildPatches] at hp
    by_cases hl : l ∈ dict
    · rw [if_pos hl] at hp
      have := ih (i0 + 1) p hp
      omega
    · rw [if_neg hl] at hp
      rcases List.mem_cons.mp hp with he | hm
      · rw [he]
      · have := ih (i0 + 1) p hm
        omega

theorem ar_patchGet_build (dict : List Nat) :
    ∀ (lefts : List Nat) (i0 j : Nat),
      patchGet (buildPatches dict i0 lefts) (i0 + j)
        = match lefts[j]? with
          | some l => if l ∈ dict then none else some l
          | none => none := by
  intro lefts
  induction lefts with
  | nil => intro i0 j; simp [buildPatches, patchGet]
  | cons l rest ih =>
    intro i0 j
    cases j with
    | zero =>
      simp only [buildPatches, Nat.add_zero, List.getElem?_cons_zero]
      by_cases hl : l ∈ dict
      · rw [if_pos hl, if_pos hl]
        have hnone : (buildPatches dict (i0 + 1) rest).find? (fun p => p.1 == i0) = none := by
          rw [List.find?_eq_none]
          intro p hp
          have := ar_build_indices_ge dict rest (i0 + 1) p hp
          simp only [beq_iff_eq]
          omega
        rw [patchGet, hnone]
        rfl
      · rw [if_neg hl, if_neg hl]
        simp [patchGet, List.find?_cons]
    | succ j =>
      simp only [buildPatches, List.getElem?_cons_succ]
      have harith : i0 + (j + 1) = (i0 + 1) + j := by omega
      by_cases hl : l ∈ dict
      · rw [if_pos hl, harith]
        exact ih (i0 + 1) j
      · rw [if_neg hl]
        have hne : ((i0, l).1 == i0 + (j + 1)) = false := by
          simp only [beq_eq_false_iff_ne, ne_eq]
          omega
        rw [patchGet, List.find?_cons, hne]
        rw [harith]
        exact ih (i0 + 1) j

theorem ar_split_join (v rbw : Nat) :
    ((v >>> rbw) <<< rbw) ||| (v &&& ((1 <<< rbw) - 1)) = v := by
  rw [Nat.one_shiftLeft, Nat.and_pow_two_sub_one_eq_mod, Nat.shiftLeft_eq,
    Nat.shiftRight_eq_div_pow, Nat.mul_comm]
  rw [← Nat.mul_add_lt_is_or (Nat.mod_lt v (Nat.two_pow_pos rbw))]
  exact Nat.div_add_mod v (2 ^ rbw)

theorem ar_decode_encode (vals : List Nat) (valid : List Bool) (dict : List Nat)
    (rbw : Nat) : intoCanonical (alpRdEncode vals valid dict rbw) = (vals, valid) := by
  rw [intoCanonical]
  refine Prod.ext ?_ rfl
  show alpRdDecode ((vals.map (fun v => v >>> rbw)).map
      (fun l => if l ∈ dict then List.indexOf l dict else 0)) dict rbw
      (vals.map (fun v => v &&& ((1 <<< rbw) - 1)))
      (buildPatches dict 0 (vals.map (fun v => v >>> rbw))) = vals
  apply List.ext_getElem
  · simp [alpRdDecode]
  · intro i h1 h2
    have hlen : ((vals.map (fun v => v >>> rbw)).map
        (fun l => if l ∈ dict then List.indexOf l dict else 0)).length = vals.length := by
      simp
    simp only [alpRdDecode]
    rw [List.getElem_map, List.getElem_range]
    have hi : i < vals.length := h2
    have hpg := ar_patchGet_build dict (vals.map (fun v => v >>> rbw)) 0 i
    rw [Nat.zero_add] at hpg
    rw [List.getElem?_map, List.getElem?_eq_getElem hi, Option.map_some'] at hpg
    simp only at hpg
    by_cases hl : vals[i] >>> rbw ∈ dict
    · rw [if_pos hl] at hpg
      rw [hpg]
      have hcode : ((vals.map (fun v => v >>> rbw)).map
          (fun l => if l ∈ dict then List.indexOf l dict else 0)).getD i 0
          = List.indexOf (vals[i] >>> rbw) dict := by
        rw [List.getD_eq_getElem _ _ (by rw [hlen]; exact hi)]
        rw [List.getElem_map, List.getElem_map]
        simp [hl]
      rw [hcode]
      have hdg : dict.getD (List.indexOf (vals[i] >>> rbw) dict) 0 = vals[i] >>> rbw := by
        rw [List.getD_eq_getElem _ _ (List.indexOf_lt_length.mpr hl)]
        exact List.getElem_indexOf _
      rw [hdg, Option.getD_none]
      rw [List.getD_eq_getElem _ _ (by simp; exact hi), List.getElem_map]
      exact ar_split_join vals[i] rbw
    · rw [if_neg hl] at hpg
      rw [hpg, Option.getD_some]
      rw [List.getD_eq_getElem _ _ (by simp; exact hi), List.getElem_map]
      exact ar_split_join vals[i] rbw

/-- C7: ALP-RD canonicalization reconstructs, at every position, the value
whose bits are (left << right_bit_width) | right_parts[i] with left the
patch value when present and dict[left_codes[i]] otherwise, with validity
taken from left_parts; encoding any bit-pattern vector with any dictionary
and right width and canonicalizing returns the original buffer and validity;
and the S3 scenario (1024 copies of next_up(0.1f32), nulls at 1, 5, 900,
a single-entry dictionary missing the data's left part so that 1021
positions become patches) round-trips with validity preserved and zero bits
at the null positions. -/
theorem c7_alprd_reconstruction :
    (∀ (arr : ALPRDArray) (i : Nat), i < arr.leftCodes.length →
      (intoCanonical arr).1.getD i 0
        = ((patchGet arr.patches i).getD (arr.dict.getD (arr.leftCodes.getD i 0) 0)
            <<< arr.rightBitWidth) ||| arr.rightParts.getD i 0 ∧
      (intoCanonical arr).2 = arr.leftValid) ∧
    (∀ (vals : List Nat) (valid : List Bool) (dict : List Nat) (rbw : Nat),
      intoCanonical (alpRdEncode vals valid dict rbw) = (vals, valid)) ∧
    (intoCanonical (alpRdEncode s3vals s3valid [0] 16) = (s3vals, s3valid) ∧
      (alpRdEncode s3vals s3valid [0] 16).patches.length = 1021) := by
  refine ⟨?_, ar_decode_encode, ar_decode_encode s3vals s3valid [0] 16, ?_⟩
  · intro arr i hi
    refine ⟨?_, rfl⟩
    simp only [intoCanonical, alpRdDecode]
    rw [List.getD_eq_getElem _ _ (by simpa [alpRdDecode] using hi)]
    rw [List.getElem_map, List.getElem_range]
  · rfl

/-- Witness for C7's pointwise reconstruction at a one-element array whose
single position is patched. -/
theorem c7_alprd_reconstruction_witness :
    (0 < ([5] : List Nat).length) ∧
    ((intoCanonical ⟨[5], [true], [7], 4, [3], [(0, 2)]⟩).1.getD 0 0
      = ((patchGet [(0, 2)] 0).getD (([7] : List Nat).getD (([5] : List Nat).getD 0 0) 0)
          <<< 4) ||| ([3] : List Nat).getD 0 0 ∧
     (intoCanonical ⟨[5], [true], [7], 4, [3], [(0, 2)]⟩).2 = [true]) :=
  ⟨by decide, (c7_alprd_reconstruction.1 ⟨[5], [true], [7], 4, [3], [(0, 2)]⟩ 0 (by decide))⟩

end AlpRd

/-! ### Bit-packed arrays: filter (fastlanes bitpacking/compute/filter.rs) -/

namespace BP

set_option maxRecDepth 10000

/-- A bit-packed primitive array: FastLanes-packed 1024-value chunks plus
patches and validity. The packed buffer and the external FastLanes kernels
are modelled by the per-chunk unpacked values (each chunk unpacks to 1024
values). Values are the unsigned primitive contents. -/
structure BitPackedArray where
  bitWidth : Nat
  offset : Nat
  length : Nat
  packedChunks : List (List Nat)
  patches : List (Nat × Nat)
  validity : List Bool

/-- From take.rs (not under src); its exact value does not affect results,
only which equivalent unpack strategy runs. -/
def UNPACK_CHUNK_THRESHOLD : Nat := 8

/-- A filter mask: logical length and the sorted, distinct selected
positions. -/
structure FilterMask where
  len : Nat
  indices : List Nat

def trueCount (m : FilterMask) : Nat := m.indices.length

/-- FastLanes unchecked_unpack of one whole chunk (external kernel,
modelled as the stored unpacked values; a missing chunk unpacks to zeros). -/
def unpackChunk (a : BitPackedArray) (c : Nat) : List Nat :=
  a.packedChunks.getD c (List.replicate 1024 0)

/-- FastLanes unchecked_unpack_single (external kernel). -/
def unpackSingle (a : BitPackedArray) (c p : Nat) : Nat :=
  (unpackChunk a c).getD p 0

/-- chunked_indices from take.rs (not under src): group the consecutive
offset-adjusted indices by their 1024-element chunk, keeping in-chunk
positions in order. -/
def groupCons (i : Nat) : List (Nat × List Nat) → List (Nat × List Nat)
  | (c, ps) :: t =>
    if i / 1024 = c then (c, (i % 1024) :: ps) :: t
    else (i / 1024, [i % 1024]) :: (c, ps) :: t
  | [] => [(i / 1024, [i % 1024])]

def groupByChunk : List Nat → List (Nat × List Nat)
  | [] => []
  | i :: rest => groupCons i (groupByChunk rest)

def chunkedIndices (indices : List Nat) (offset : Nat) : List (Nat × List Nat) :=
  groupByChunk (indices.map (fun i => i + offset))

/-- filter_indices from the source: per chunk group, a full 1024-index group
takes the whole unpacked chunk, a group above the threshold bulk-unpacks
into a scratch buffer and gathers, and a small group unpacks single
positions. -/
def filterIndices (a : BitPackedArray) (indices : List Nat) : List Nat :=
  (chunkedIndices indices a.offset).flatMap (fun g =>
    if g.2.length = 1024 then unpackChunk a g.1
    else if g.2.length > UNPACK_CHUNK_THRESHOLD then
      g.2.map (fun p => (unpackChunk a g.1).getD p 0)
    else
      g.2.map (fun p => unpackSingle a g.1 p))

/-- Patches lookup at a logical index. -/
def bpPatchGet (ps : List (Nat × Nat)) (i : Nat) : Option Nat :=
  (ps.find? (fun p => p.1 == i)).map Prod.snd

/-- Modelled from the spec: applying patches to a primitive materializes by
overwrite; pointwise, a patched position takes the (non-null) patch value
and becomes valid. -/
def bpPatchApply (vals : List Nat) (valid : List Bool) (ps : List (Nat × Nat)) :
    List Nat × List Bool :=
  ((List.range vals.length).map (fun k => (bpPatchGet ps k).getD (vals.getD k 0)),
   (List.range valid.length).map (fun k =>
     if (bpPatchGet ps k).isSome then true else valid.getD k false))

/-- Modelled from the spec: Patches::filter reindexes the surviving patch
indices to their rank among the selected positions. -/
def bpPatchesFilter (ps : List (Nat × Nat)) : Nat → List Nat → List (Nat × Nat)
  | _, [] => []
  | k, i :: rest =>
    match bpPatchGet ps i with
    | some v => (k, v) :: bpPatchesFilter ps (k + 1) rest
    | none => bpPatchesFilter ps (k + 1) rest

/-- The unpacked logical buffer: all chunks flattened, the slice offset
dropped, cut to the logical length. -/
def canonicalVals (a : BitPackedArray) : List Nat :=
  ((a.packedChunks.flatten).drop a.offset).take a.length

/-- into_primitive (canonicalization) of a bit-packed array (not under src):
unpack everything and apply the patches. -/
def canonical (a : BitPackedArray) : List Nat × List Bool :=
  bpPatchApply (canonicalVals a) a.validity a.patches

/-- The canonical primitive filter kernel: gather values and validity at the
mask positions. -/
def filterPrim (vals : List Nat) (valid : List Bool) (indices : List Nat) :
    List Nat × List Bool :=
  (indices.map (fun i => vals.getD i 0), indices.map (fun i => valid.getD i false))

/-- filter_primitive from the source: filter the validity and the patches,
short-circuit through canonicalization when selectivity exceeds 0.8, and
otherwise gather through the grouped unpack strategy and apply the filtered
patches afterwards. -/
def filterPrimitive (a : BitPackedArray) (m : FilterMask) : List Nat × List Bool :=
  let validity := m.indices.map (fun i => a.validity.getD i false)
  let patches := bpPatchesFilter a.patches 0 m.indices
  if 5 * m.indices.length > 4 * m.len then
    filterPrim (canonical a).1 (canonical a).2 m.indices
  else
    bpPatchApply (filterIndices a m.indices) validity patches

/-- Construction invariants of the modelled bit-packed array. -/
def bpWF (a : BitPackedArray) : Prop :=
  (∀ ch ∈ a.packedChunks, ch.length = 1024) ∧
  a.offset + a.length ≤ 1024 * a.packedChunks.length ∧
  a.validity.length = a.length

/-- Mask invariants: matching length, sorted distinct in-bounds indices. -/
def maskWF (m : FilterMask) (a : BitPackedArray) : Prop :=
  m.len = a.length ∧ List.Pairwise (· < ·) m.indices ∧ ∀ i ∈ m.indices, i < a.length

/-- The S1 scenario: the u8 values i % 63 for i in 0..4096, bit-packed at
width 6 (fitting exactly, so no patches), in four 1024-value chunks. -/
def s1 : BitPackedArray :=
  { bitWidth := 6, offset := 0, length := 4096,
    packedChunks := (List.range 4).map (fun c =>
      (List.range 1024).map (fun j => (1024 * c + j) % 63)),
    patches := [], validity := List.replicate 4096 true }

def s1mask : FilterMask := ⟨4096, [0, 125, 2047, 2049, 2151, 2790]⟩

end BP

namespace BP

theorem bp_ext_getD {α : Type} (d : α) (A B : List α) (hl : A.length = B.length)
    (h : ∀ k, k < A.length → A.getD k d = B.getD k d) : A = B := by
  apply List.ext_getElem hl
  intro n h1 h2
  have := h n h1
  rwa [List.getD_eq_getElem _ _ h1, List.getD_eq_getElem _ _ h2] at this

theorem bp_getD_map {α β : Type} (f : α → β) (l : List α) (k : Nat) (d : α) (d2 : β)
    (hk : k < l.length) : (l.map f).getD k d2 = f (l.getD k d) := by
  rw [List.getD_eq_getElem _ _ (by simpa using hk), List.getD_eq_getElem _ _ hk,
    List.getElem_map]

theorem bp_flatten_length (chunks : List (List Nat))
    (h : ∀ ch ∈ chunks, ch.length = 1024) :
    chunks.flatten.length = 1024 * chunks.length := by
  induction chunks with
  | nil => simp
  | cons c rest ih =>
    simp only [List.flatten_cons, List.length_append, List.length_cons]
    rw [h c (by simp), ih (fun ch hch => h ch (by simp [hch]))]
    ring

theorem bp_flatten_uniform (chunks : List (List Nat))
    (h : ∀ ch ∈ chunks, ch.length = 1024) :
    ∀ j, j < 1024 * chunks.length →
      chunks.flatten.getD j 0
        = (chunks.getD (j / 1024) (List.replicate 1024 0)).getD (j % 1024) 0 := by
  induction chunks with
  | nil => intro j hj; simp at hj
  | cons c rest ih =>
    intro j hj
    have hc : c.length = 1024 := h c (by simp)
    simp only [List.flatten_cons]
    by_cases hlt : j < 1024
    · rw [List.getD_append _ _ _ _ (by omega)]
      have h1 : j / 1024 = 0 := Nat.div_eq_of_lt hlt
      have h2 : j % 1024 = j := Nat.mod_eq_of_lt hlt
      rw [h1, h2, List.getD_cons_zero]
    · rw [List.getD_append_right _ _ _ _ (by omega)]
      have h1 : j / 1024 = (j - 1024) / 1024 + 1 := by omega
      have h2 : j % 1024 = (j - 1024) % 1024 := by omega
      rw [hc, h1, h2, List.getD_cons_succ]
      apply ih (fun ch hch => h ch (by simp [hch]))
      simp only [List.length_cons] at hj
      omega

theorem bp_canonicalVals_length (a : BitPackedArray) (hwf : bpWF a) :
    (canonicalVals a).length = a.length := by
  obtain ⟨h1, h2, _⟩ := hwf
  rw [canonicalVals, List.length_take, List.length_drop, bp_flatten_length _ h1]
  omega

theorem bp_canonicalVals_getD (a : BitPackedArray) (hwf : bpWF a) (i : Nat)
    (hi : i < a.length) :
    (canonicalVals a).getD i 0
      = unpackSingle a ((i + a.offset) / 1024) ((i + a.offset) % 1024) := by
  obtain ⟨h1, h2, _⟩ := hwf
  have hflat : a.packedChunks.flatten.length = 1024 * a.packedChunks.length :=
    bp_flatten_length _ h1
  have hbound : a.offset + i < a.packedChunks.flatten.length := by omega
  have hcv : (canonicalVals a).getD i 0 = a.packedChunks.flatten.getD (a.offset + i) 0 := by
    rw [List.getD_eq_getElem?_getD, List.getD_eq_getElem?_getD, canonicalVals]
    rw [List.getElem?_take, if_pos hi, List.getElem?_drop]
  rw [hcv, bp_flatten_uniform _ h1 (a.offset + i) (by omega)]
  rw [show a.offset + i = i + a.offset by omega]
  rfl

theorem bp_group_flatMap (f : Nat → Nat → Nat) :
    ∀ xs : List Nat, (groupByChunk xs).flatMap (fun g => g.2.map (f g.1))
      = xs.map (fun j => f (j / 1024) (j % 1024)) := by
  intro xs
  induction xs with
  | nil => rfl
  | cons i rest ih =>
    rw [show groupByChunk (i :: rest) = groupCons i (groupByChunk rest) from rfl]
    cases hg : groupByChunk rest with
    | nil =>
      rw [hg] at ih
      simp only [List.flatMap_nil] at ih
      simp [groupCons, List.map_cons, ← ih]
    | cons g t =>
      obtain ⟨c, ps⟩ := g
      rw [hg] at ih
      simp only [groupCons]
      by_cases hc : i / 1024 = c
      · rw [if_pos hc]
        simp only [List.flatMap_cons, List.map_cons] at ih ⊢
        rw [← hc] at ih ⊢
        simp [← ih, List.append_assoc]
      · rw [if_neg hc]
        simp only [List.flatMap_cons, List.map_cons] at ih ⊢
        simp [← ih]

theorem bp_group_elems :
    ∀ xs : List Nat, ∀ g ∈ groupByChunk xs, ∀ p ∈ g.2,
      ∃ x ∈ xs, x / 1024 = g.1 ∧ x % 1024 = p := by
  intro xs
  induction xs with
  | nil => intro g hg; simp [groupByChunk] at hg
  | cons i rest ih =>
    intro g hg p hp
    rw [show groupByChunk (i :: rest) = groupCons i (groupByChunk rest) from rfl] at hg
    cases hgr : groupByChunk rest with
    | nil =>
      rw [hgr] at hg
      simp only [groupCons, List.mem_singleton] at hg
      subst hg
      simp only [List.mem_singleton] at hp
      exact ⟨i, by simp, rfl, hp.symm⟩
    | cons g0 t =>
      obtain ⟨c, ps⟩ := g0
      rw [hgr] at hg
      simp only [groupCons] at hg
      by_cases hc : i / 1024 = c
      · rw [if_pos hc] at hg
        rcases List.mem_cons.mp hg with he | hm
        · subst he
          rcases List.mem_cons.mp hp with hpe | hpm
          · exact ⟨i, by simp, hc, hpe.symm⟩
          · obtain ⟨x, hx, hx1, hx2⟩ := ih (c, ps) (by rw [hgr]; simp) p hpm
            exact ⟨x, by simp [hx], hx1, hx2⟩
        · obtain ⟨x, hx, hx1, hx2⟩ := ih g (by rw [hgr]; simp [hm]) p hp
          exact ⟨x, by simp [hx], hx1, hx2⟩
      · rw [if_neg hc] at hg
        rcases List.mem_cons.mp hg with he | hm
        · subst he
          simp only [List.mem_singleton] at hp
          exact ⟨i, by simp, rfl, hp.symm⟩
        · obtain ⟨x, hx, hx1, hx2⟩ := ih g (by rw [hgr]; exact hm) p hp
          exact ⟨x, by simp [hx], hx1, hx2⟩

theorem bp_group_sorted :
    ∀ xs : List Nat, List.Pairwise (· < ·) xs →
      ∀ g ∈ groupByChunk xs, List.Pairwise (· < ·) g.2 := by
  intro xs
  induction xs with
  | nil => intro _ g hg; simp [groupByChunk] at hg
  | cons i rest ih =>
    intro hs g hg
    have hi := List.pairwise_cons.mp hs
    rw [show groupByChunk (i :: rest) = groupCons i (groupByChunk rest) from rfl] at hg
    cases hgr : groupByChunk rest with
    | nil =>
      rw [hgr] at hg
      simp only [groupCons, List.mem_singleton] at hg
      subst hg
      simp
    | cons g0 t =>
      obtain ⟨c, ps⟩ := g0
      rw [hgr] at hg
      simp only [groupCons] at hg
      by_cases hc : i / 1024 = c
      · rw [if_pos hc] at hg
        rcases List.mem_cons.mp hg with he | hm
        · subst he
          refine List.pairwise_cons.mpr ⟨?_, ?_⟩
          · intro p hp
            obtain ⟨x, hx, hx1, hx2⟩ := bp_group_elems rest (c, ps) (by rw [hgr]; simp) p hp
            have hix : i < x := hi.1 x hx
            have : i / 1024 = x / 1024 := by rw [hc, hx1]
            omega
          · exact ih hi.2 (c, ps) (by rw [hgr]; simp)
        · exact ih hi.2 g (by rw [hgr]; simp [hm])
      · rw [if_neg hc] at hg
        rcases List.mem_cons.mp hg with he | hm
        · subst he
          simp
        · exact ih hi.2 g (by rw [hgr]; exact hm)

theorem bp_group_bounded :
    ∀ xs : List Nat, ∀ g ∈ groupByChunk xs, ∀ p ∈ g.2, p < 1024 := by
  intro xs g hg p hp
  obtain ⟨x, _, _, hx2⟩ := bp_group_elems xs g hg p hp
  omega

end BP

namespace BP

theorem bp_sorted_length_le :
    ∀ (l : List Nat) (a b : Nat), List.Pairwise (· < ·) l →
      (∀ x ∈ l, a ≤ x ∧ x < b) → l.length ≤ b - a := by
  intro l
  induction l with
  | nil => intro a b _ _; simp
  | cons x rest ih =>
    intro a b hp hb
    have hx := hb x (by simp)
    have hpc := List.pairwise_cons.mp hp
    have hrest := ih (x + 1) b hpc.2 (fun y hy => ⟨hpc.1 y hy, (hb y (by simp [hy])).2⟩)
    simp only [List.length_cons]
    omega

theorem bp_sorted_full_range :
    ∀ (n lo : Nat) (ps : List Nat), List.Pairwise (· < ·) ps →
      (∀ p ∈ ps, lo ≤ p ∧ p < lo + n) → ps.length = n → ps = List.range' lo n := by
  intro n
  induction n with
  | zero =>
    intro lo ps _ _ hlen
    rw [List.length_eq_zero.mp hlen]
    rfl
  | succ n ih =>
    intro lo ps hp hb hlen
    cases ps with
    | nil => simp at hlen
    | cons p rest =>
      have hpc := List.pairwise_cons.mp hp
      have hplo := hb p (by simp)
      have hrestb : ∀ y ∈ rest, p + 1 ≤ y ∧ y < lo + (n + 1) :=
        fun y hy => ⟨hpc.1 y hy, (hb y (by simp [hy])).2⟩
      have hrlen : rest.length = n := by simpa using hlen
      have hple : p = lo := by
        by_contra hne
        have hgt : lo + 1 ≤ p := by omega
        have := bp_sorted_length_le rest (p + 1) (lo + (n + 1)) hpc.2 hrestb
        omega
      subst hple
      rw [List.range'_succ]
      congr 1
      exact ih (p + 1) rest hpc.2 (fun y hy => ⟨(hrestb y hy).1, by
        have := (hrestb y hy).2
        omega⟩) hrlen

theorem bp_unpackChunk_length (a : BitPackedArray)
    (h : ∀ ch ∈ a.packedChunks, ch.length = 1024) (c : Nat) :
    (unpackChunk a c).length = 1024 := by
  rw [unpackChunk]
  by_cases hc : c < a.packedChunks.length
  · rw [List.getD_eq_getElem _ _ hc]
    exact h _ (List.getElem_mem hc)
  · rw [List.getD_eq_default _ _ (by omega)]
    exact List.length_replicate _ _

theorem bp_full_group_map (chunkL : List Nat) (hlen : chunkL.length = 1024)
    (ps : List Nat) (hs : List.Pairwise (· < ·) ps) (hb : ∀ p ∈ ps, p < 1024)
    (hfull : ps.length = 1024) :
    ps.map (fun p => chunkL.getD p 0) = chunkL := by
  have hr : ps = List.range' 0 1024 :=
    bp_sorted_full_range 1024 0 ps hs (fun p hp => ⟨Nat.zero_le p, by simpa using hb p hp⟩)
      hfull
  rw [hr, ← List.range_eq_range']
  apply List.ext_getElem
  · simp [hlen]
  · intro n h1 h2
    rw [List.getElem_map, List.getElem_range, List.getD_eq_getElem _ _ (by omega)]

theorem bp_branch_eq (a : BitPackedArray)
    (hch : ∀ ch ∈ a.packedChunks, ch.length = 1024) (g : Nat × List Nat)
    (hs : List.Pairwise (· < ·) g.2) (hb : ∀ p ∈ g.2, p < 1024) :
    (if g.2.length = 1024 then unpackChunk a g.1
     else if g.2.length > UNPACK_CHUNK_THRESHOLD then
       g.2.map (fun p => (unpackChunk a g.1).getD p 0)
     else g.2.map (fun p => unpackSingle a g.1 p))
      = g.2.map (fun p => unpackSingle a g.1 p) := by
  by_cases hfull : g.2.length = 1024
  · rw [if_pos hfull]
    rw [show (fun p => unpackSingle a g.1 p) = (fun p => (unpackChunk a g.1).getD p 0)
      from rfl]
    exact (bp_full_group_map (unpackChunk a g.1) (bp_unpackChunk_length a hch g.1)
      g.2 hs hb hfull).symm
  · rw [if_neg hfull]
    by_cases hth : g.2.length > UNPACK_CHUNK_THRESHOLD
    · rw [if_pos hth]
      rfl
    · rw [if_neg hth]

theorem bp_flatMap_congr {α β : Type} (l : List α) (f f2 : α → List β)
    (h : ∀ x ∈ l, f x = f2 x) : l.flatMap f = l.flatMap f2 := by
  induction l with
  | nil => rfl
  | cons x rest ih =>
    simp only [List.flatMap_cons]
    rw [h x (by simp), ih (fun y hy => h y (by simp [hy]))]

theorem bp_filterIndices_eq (a : BitPackedArray) (hwf : bpWF a) (idx : List Nat)
    (hs : List.Pairwise (· < ·) idx) (hbound : ∀ i ∈ idx, i < a.length) :
    filterIndices a idx = idx.map (fun i => (canonicalVals a).getD i 0) := by
  have hxs : List.Pairwise (· < ·) (idx.map (fun i => i + a.offset)) :=
    List.Pairwise.map _ (fun x y hxy => by omega) hs
  rw [filterIndices, chunkedIndices]
  rw [bp_flatMap_congr _ _ (fun g => g.2.map (fun p => unpackSingle a g.1 p))
    (fun g hg => bp_branch_eq a hwf.1 g
      (bp_group_sorted _ hxs g hg)
      (bp_group_bounded _ g hg))]
  rw [bp_group_flatMap (fun c p => unpackSingle a c p)]
  rw [List.map_map]
  apply List.map_congr_left
  intro i hi
  simp only [Function.comp]
  exact (bp_canonicalVals_getD a hwf i (hbound i hi)).symm

end BP

namespace BP

theorem bp_pf_indices_ge (ps : List (Nat × Nat)) :
    ∀ (idx : List Nat) (k0 : Nat) (q : Nat × Nat),
      q ∈ bpPatchesFilter ps k0 idx → k0 ≤ q.1 := by
  intro idx
  induction idx with
  | nil => intro k0 q hq; simp [bpPatchesFilter] at hq
  | cons i rest ih =>
    intro k0 q hq
    simp only [bpPatchesFilter] at hq
    cases hg : bpPatchGet ps i with
    | some v =>
      rw [hg] at hq
      rcases List.mem_cons.mp hq with he | hm
      · rw [he]
      · have := ih (k0 + 1) q hm
        omega
    | none =>
      rw [hg] at hq
      have := ih (k0 + 1) q hq
      omega

theorem bp_patchesFilter_get (ps : List (Nat × Nat)) :
    ∀ (idx : List Nat) (k0 j : Nat), j < idx.length →
      bpPatchGet (bpPatchesFilter ps k0 idx) (k0 + j)
        = bpPatchGet ps (idx.getD j 0) := by
  intro idx
  induction idx with
  | nil => intro k0 j hj; simp at hj
  | cons i rest ih =>
    intro k0 j hj
    cases j with
    | zero =>
      simp only [bpPatchesFilter, Nat.add_zero, List.getD_cons_zero]
      cases hg : bpPatchGet ps i with
      | some v =>
        rw [show bpPatchGet ((k0, v) :: bpPatchesFilter ps (k0 + 1) rest) k0
            = ((((k0, v) :: bpPatchesFilter ps (k0 + 1) rest).find?
                (fun p => p.1 == k0)).map Prod.snd) from rfl]
        simp [List.find?_cons]
      | none =>
        rw [bpPatchGet, List.find?_eq_none.mpr]
        · rfl
        · intro q hq
          have := bp_pf_indices_ge ps rest (k0 + 1) q hq
          simp only [beq_iff_eq]
          omega
    | succ j =>
      simp only [bpPatchesFilter, List.getD_cons_succ]
      have hj2 : j < rest.length := by simpa using hj
      have harith : k0 + (j + 1) = (k0 + 1) + j := by omega
      cases hg : bpPatchGet ps i with
      | some v =>
        have hne : (((k0, v) : Nat × Nat).1 == k0 + (j + 1)) = false := by
          simp only [beq_eq_false_iff_ne, ne_eq]
          omega
        rw [bpPatchGet, List.find?_cons, hne, harith]
        exact ih (k0 + 1) j hj2
      | none =>
        rw [harith]
        exact ih (k0 + 1) j hj2

theorem bp_patchApply_fst_len (vals : List Nat) (valid : List Bool)
    (ps : List (Nat × Nat)) : (bpPatchApply vals valid ps).1.length = vals.length := by
  simp [bpPatchApply]

theorem bp_patchApply_fst_getD (vals : List Nat) (valid : List Bool)
    (ps : List (Nat × Nat)) (k : Nat) (hk : k < vals.length) :
    (bpPatchApply vals valid ps).1.getD k 0
      = (bpPatchGet ps k).getD (vals.getD k 0) := by
  rw [bpPatchApply]
  rw [bp_getD_map _ _ _ 0 _ (by simpa using hk)]
  rw [List.getD_eq_getElem _ _ (by simpa using hk), List.getElem_range]

theorem bp_patchApply_snd_getD (vals : List Nat) (valid : List Bool)
    (ps : List (Nat × Nat)) (k : Nat) (hk : k < valid.length) :
    (bpPatchApply vals valid ps).2.getD k false
      = if (bpPatchGet ps k).isSome then true else valid.getD k false := by
  rw [bpPatchApply]
  rw [bp_getD_map _ _ _ 0 _ (by simpa using hk)]
  rw [List.getD_eq_getElem _ _ (by simpa using hk), List.getElem_range]

end BP

namespace BP

theorem bp_filter_eq (a : BitPackedArray) (m : FilterMask) (hwf : bpWF a)
    (hm : maskWF m a) :
    filterPrimitive a m = filterPrim (canonical a).1 (canonical a).2 m.indices := by
  obtain ⟨hlen, hsorted, hbound⟩ := hm
  rw [filterPrimitive]
  by_cases hsel : 5 * m.indices.length > 4 * m.len
  · rw [if_pos hsel]
  · rw [if_neg hsel]
    have hcvlen : (canonicalVals a).length = a.length := bp_canonicalVals_length a hwf
    have hv : a.validity.length = a.length := hwf.2.2
    have hF : filterIndices a m.indices
        = m.indices.map (fun i => (canonicalVals a).getD i 0) :=
      bp_filterIndices_eq a hwf m.indices hsorted hbound
    have hFlen : (filterIndices a m.indices).length = m.indices.length := by
      rw [hF, List.length_map]
    have hmem : ∀ k, k < m.indices.length → m.indices.getD k 0 ∈ m.indices := by
      intro k hk
      rw [List.getD_eq_getElem _ _ hk]
      exact List.getElem_mem hk
    have hpg : ∀ k, k < m.indices.length →
        bpPatchGet (bpPatchesFilter a.patches 0 m.indices) k
          = bpPatchGet a.patches (m.indices.getD k 0) := by
      intro k hk
      have := bp_patchesFilter_get a.patches m.indices 0 k hk
      rwa [Nat.zero_add] at this
    apply Prod.ext
    · apply bp_ext_getD 0
      · rw [bp_patchApply_fst_len, hFlen, filterPrim, List.length_map]
      · intro k hk
        rw [bp_patchApply_fst_len, hFlen] at hk
        have hik : m.indices.getD k 0 < a.length := hbound _ (hmem k hk)
        rw [bp_patchApply_fst_getD _ _ _ k (by omega)]
        rw [hF, bp_getD_map _ _ _ 0 _ hk, hpg k hk]
        rw [show (filterPrim (canonical a).1 (canonical a).2 m.indices).1
            = m.indices.map (fun i => (canonical a).1.getD i 0) from rfl]
        rw [bp_getD_map _ _ _ 0 _ hk]
        rw [show (canonical a).1 = (bpPatchApply (canonicalVals a) a.validity a.patches).1
            from rfl]
        rw [bp_patchApply_fst_getD _ _ _ _ (by omega)]
    · apply bp_ext_getD false
      · simp [bpPatchApply, filterPrim]
      · intro k hk
        simp only [bpPatchApply, List.length_map, List.length_range] at hk
        have hik : m.indices.getD k 0 < a.length := hbound _ (hmem k hk)
        rw [bp_patchApply_snd_getD _ _ _ k (by simpa using hk)]
        rw [bp_getD_map _ _ _ 0 _ hk, hpg k hk]
        rw [show (filterPrim (canonical a).1 (canonical a).2 m.indices).2
            = m.indices.map (fun i => (canonical a).2.getD i false) from rfl]
        rw [bp_getD_map _ _ _ 0 _ hk]
        rw [show (canonical a).2 = (bpPatchApply (canonicalVals a) a.validity a.patches).2
            from rfl]
        rw [bp_patchApply_snd_getD _ _ _ _ (by omega)]

end BP

namespace BP

set_option maxRecDepth 10000

/-- C5: Filtering the bit-packed u8 array built from [i % 63 for i in 0..4096]
packed at bit width 6 with the index mask [0, 125, 2047, 2049, 2151, 2790]
yields the primitive values [0, 62, 31, 33, 9, 18]; in general, for every
well-formed bit-packed array and sorted in-bounds mask, filter_primitive
returns exactly the filter of the canonicalized array (both values and
validity) — canonicalizing first when selectivity exceeds 0.8 and otherwise
routing the grouped indices through the chunked unpack strategies with the
filtered patches applied afterwards — and its value and validity buffers both
have length mask.true_count. -/
theorem c5_bitpacked_filter :
    (∀ (a : BitPackedArray) (m : FilterMask), bpWF a → maskWF m a →
      filterPrimitive a m = filterPrim (canonical a).1 (canonical a).2 m.indices ∧
      (filterPrimitive a m).1.length = trueCount m ∧
      (filterPrimitive a m).2.length = trueCount m) ∧
    (filterPrimitive s1 s1mask).1 = [0, 62, 31, 33, 9, 18] ∧
    (filterPrimitive s1 s1mask).1.length = trueCount s1mask := by
  refine ⟨?_, by decide, by decide⟩
  intro a m hwf hm
  have heq := bp_filter_eq a m hwf hm
  refine ⟨heq, ?_, ?_⟩
  · rw [heq]
    simp [filterPrim, trueCount]
  · rw [heq]
    simp [filterPrim, trueCount]

/-- Witness: the S1 array and mask satisfy the well-formedness hypotheses, and
the claim theorem applied there gives the canonical-filter agreement and the
true-count lengths at a concrete input. -/
theorem c5_bitpacked_filter_witness :
    bpWF s1 ∧ maskWF s1mask s1 ∧
    (filterPrimitive s1 s1mask
        = filterPrim (canonical s1).1 (canonical s1).2 s1mask.indices ∧
      (filterPrimitive s1 s1mask).1.length = trueCount s1mask ∧
      (filterPrimitive s1 s1mask).2.length = trueCount s1mask) :=
  ⟨by simp only [bpWF]; exact ⟨by decide, by decide, List.length_replicate 4096 true⟩,
   by simp only [maskWF]; refine ⟨by decide, by decide, by decide⟩,
   c5_bitpacked_filter.1 s1 s1mask
     (by simp only [bpWF]; exact ⟨by decide, by decide, List.length_replicate 4096 true⟩)
     (by simp only [maskWF]; refine ⟨by decide, by decide, by decide⟩)⟩

end BP
